import Mathlib

/-!
Verification development for the email-visual-tester repository.

The definitions below are a shallow embedding of the TypeScript sources:

* `EmailOnAcidService.getPreviewUrls` (src/global-setup.ts, service part):
  a bounded polling loop that repeatedly fetches per-client render results
  and accumulates the default screenshot URL of every client whose status
  is "Complete".  Modelled by `pollStep` / `runPollAux` / `runPoll`, where
  the sequence of fetch outcomes is an explicit trace `Nat → FetchOutcome`.
* `getFullEmailOnAcidResults` (get-full-eoa-results.ts): a second bounded
  polling loop over a results array with lowercase statuses.  Modelled by
  `eoaStep` / `runEoaAux` / `runEoa`.
* `globalSetup`'s manifest writes (src/global-setup.ts, setup part):
  modelled by `globalSetupWrites` together with a faithful rendering of
  `JSON.stringify(previews, null, 2)`.
* `getHtmlFromPayload` (Gmail extractor): a depth-first walk of a MIME
  part tree, modelled by `getHtmlFromPayload` over `MessagePart`; decoded
  bodies are byte lists, so that the JavaScript truthiness test
  `if (html)` becomes a test against `some []` and `none`.

Sleeps performed by the loops are logged as `(attempt index, duration ms)`
pairs; fetch attempts are counted, so that termination and scheduling
claims can be stated about the run logs.
-/

/-- Number of loop iterations in both polling loops (60 in both sources). -/
def MAX_POLLING_ATTEMPTS : Nat := 60

/-- Sleep duration between polling attempts in both sources (10000 ms). -/
def POLLING_INTERVAL_MS : Nat := 10000

/-! ## Data model for `getPreviewUrls` -/

/-- A JavaScript field value as inspected by
`clientResult.screenshots?.default && typeof ... === 'string'`:
it can be missing, a string, or some non-string value. -/
inductive JsField where
  | missing
  | str (s : String)
  | nonString
  deriving DecidableEq, Repr

/-- One client entry of the results object returned by
GET /v5/email/tests/{id}/results, restricted to the fields the loop
reads: `status` and `screenshots.default`. -/
structure ClientResult where
  status : String
  screenshotsDefault : JsField
  deriving DecidableEq, Repr

/-- The results object (`Record<string, ClientResult>`), as an ordered
association list; `Object.keys` is the list of first components. -/
abbrev ApiResults := List (String × ClientResult)

/-- The accumulated `extractedUrls : Record<string, string>`. -/
abbrev UrlMap := List (String × String)

/-- Property lookup on a record. -/
def lookupKey {α : Type} : List (String × α) → String → Option α
  | [], _ => none
  | (k', v) :: rest, k => if k' = k then some v else lookupKey rest k

/-- JavaScript object assignment `obj[k] = v`: updates the existing key in
place, or appends a new key at the end. -/
def setKey : UrlMap → String → String → UrlMap
  | [], k, v => [(k, v)]
  | (k', v') :: rest, k, v =>
      if k' = k then (k', v) :: rest else (k', v') :: setKey rest k v

/-- The truthiness-and-type test
`clientResult.screenshots?.default && typeof ... === 'string'`:
succeeds exactly on non-empty strings, returning the string. -/
def defaultUrlOf : JsField → Option String
  | .str s => if s = "" then none else some s
  | _ => none

/-- `clientsToMonitor`: the desired clients, or all keys of the current
response when no specific clients were requested. -/
def clientsToMonitor (emailClients : List String) (results : ApiResults) :
    List String :=
  if emailClients.isEmpty then results.map (fun kv => kv.1) else emailClients

/-- State threaded through one polling attempt's per-client loop:
the URL map and the `allTargetClientsProcessed` flag. -/
structure AttemptState where
  urls : UrlMap
  allProcessed : Bool
  deriving DecidableEq, Repr

/-- Body of the per-client loop of `getPreviewUrls`: looks the target
client up in the response, stores the default screenshot URL of a
"Complete" client when it is a non-empty string, leaves "Failed" and
"Bounced" clients alone, and clears `allProcessed` in every other case. -/
def pollClientStep (results : ApiResults) (st : AttemptState) (cid : String) :
    AttemptState :=
  match lookupKey results cid with
  | none => { st with allProcessed := false }
  | some cr =>
      if cr.status = "Complete" then
        match defaultUrlOf cr.screenshotsDefault with
        | some s => { st with urls := setKey st.urls cid s }
        | none => { st with allProcessed := false }
      else if cr.status = "Failed" ∨ cr.status = "Bounced" then st
      else { st with allProcessed := false }

/-- Terminal statuses of the `getPreviewUrls` loop. -/
def isFinalStatus (s : String) : Bool :=
  s = "Complete" || s = "Failed" || s = "Bounced"

/-- The per-client predicate of the `finalizedTargetClientsCount` filter:
the client is present in the response with a terminal status. -/
def clientFinalized (results : ApiResults) (cid : String) : Bool :=
  match lookupKey results cid with
  | some cd => isFinalStatus cd.status
  | none => false

/-- One successful polling attempt of `getPreviewUrls`: the initial
`allProcessed` flag (cleared when the response is empty but clients are
monitored), the per-client loop, and the early-exit test
`finalizedTargetClientsCount === clientsToMonitor.length`. -/
def attemptOnSuccess (emailClients : List String) (urls : UrlMap)
    (data : ApiResults) : AttemptState × Bool :=
  let monitor := clientsToMonitor emailClients data
  let st0 : AttemptState :=
    { urls := urls, allProcessed := !(data.isEmpty && !monitor.isEmpty) }
  let st1 := monitor.foldl (pollClientStep data) st0
  (st1, (monitor.filter (clientFinalized data)).length == monitor.length)

/-- Outcome of one fetch of the results endpoint: a parsed response body,
an HTTP error status, or a network error without a response. -/
inductive FetchOutcome where
  | success (data : ApiResults)
  | httpError (status : Nat)
  | networkError
  deriving DecidableEq, Repr

/-- What one iteration of the `getPreviewUrls` loop decides: break out of
the loop, re-throw the authentication error, or continue with updated
URLs and the final `allProcessed` flag. -/
inductive StepRes where
  | brk (urls : UrlMap)
  | throwAuth
  | cont (urls : UrlMap) (allProcessed : Bool)
  deriving DecidableEq, Repr

/-- One iteration body of the `getPreviewUrls` loop (the try/catch):
on success, run the attempt and break when every monitored client is
finalized; on a 404, another HTTP error, or a network error, keep the
URLs and clear `allProcessed`; on a 401, re-throw. -/
def pollStep (emailClients : List String) (urls : UrlMap)
    (out : FetchOutcome) : StepRes :=
  match out with
  | .success data =>
      let stb := attemptOnSuccess emailClients urls data
      if stb.2 then .brk stb.1.urls
      else .cont stb.1.urls stb.1.allProcessed
  | .httpError s =>
      if s = 404 then .cont urls false
      else if s = 401 then .throwAuth
      else .cont urls false
  | .networkError => .cont urls false

/-- Result of a whole `getPreviewUrls` run: the returned URL map, or the
re-thrown authentication error. -/
inductive PollResult where
  | ok (m : UrlMap)
  | authError
  deriving DecidableEq, Repr

/-- Observable log of a `getPreviewUrls` run: how many fetch attempts
were performed, after which attempts the loop slept (with duration), and
the result. -/
structure RunLog where
  fetches : Nat
  sleepsAfter : List (Nat × Nat)
  result : PollResult
  deriving DecidableEq, Repr

/-- The polling loop of `getPreviewUrls`, with `fuel` remaining
iterations (`fuel + attempt = MAX_POLLING_ATTEMPTS` at the top-level
call).  After a continuing attempt the loop sleeps exactly when
`attempt < MAX_POLLING_ATTEMPTS - 1 && !allTargetClientsProcessed`. -/
def runPollAux (emailClients : List String) (tr : Nat → FetchOutcome) :
    Nat → Nat → UrlMap → List (Nat × Nat) → RunLog
  | 0, attempt, urls, sleeps => ⟨attempt, sleeps, .ok urls⟩
  | fuel + 1, attempt, urls, sleeps =>
      match pollStep emailClients urls (tr attempt) with
      | .brk u => ⟨attempt + 1, sleeps, .ok u⟩
      | .throwAuth => ⟨attempt + 1, sleeps, .authError⟩
      | .cont u ap =>
          runPollAux emailClients tr fuel (attempt + 1) u
            (if decide (attempt < MAX_POLLING_ATTEMPTS - 1) && !ap then
               sleeps ++ [(attempt, POLLING_INTERVAL_MS)]
             else sleeps)

/-- A full `getPreviewUrls` run against the fetch-outcome trace `tr`. -/
def runPoll (emailClients : List String) (tr : Nat → FetchOutcome) : RunLog :=
  runPollAux emailClients tr MAX_POLLING_ATTEMPTS 0 [] []

/-! ## Data model for `getFullEmailOnAcidResults` -/

/-- One entry of the `results` array of the full-results script; only
`clientResult?.status` is inspected (the entry may lack a status). -/
structure EoaClientResult where
  status : Option String
  deriving DecidableEq, Repr

/-- The response body stored in `fullApiResponse`; the loop reads
`fullApiResponse?.results || []`, so the `results` field may be absent. -/
structure EoaData where
  results : Option (List EoaClientResult)
  deriving DecidableEq, Repr

/-- Outcome of one fetch in the full-results script. -/
inductive EoaFetchOutcome where
  | success (data : EoaData)
  | httpError (status : Nat)
  | networkError
  deriving DecidableEq, Repr

/-- The `currentStatusCounts` summary accumulated per attempt. -/
structure StatusCounts where
  complete : Nat
  pending : Nat
  failed : Nat
  deriving DecidableEq, Repr

/-- Body of the per-result loop of the full-results script (the else-if
chain on `clientResult?.status`): counts "complete", "pending" and
"failed", clears `allClientStatusesFinal` exactly on "pending", and for
any other status touches neither the counters nor the flag. -/
def eoaCount (acc : StatusCounts × Bool) (r : EoaClientResult) :
    StatusCounts × Bool :=
  if r.status = some "complete" then
    ({ acc.1 with complete := acc.1.complete + 1 }, acc.2)
  else if r.status = some "pending" then
    ({ acc.1 with pending := acc.1.pending + 1 }, false)
  else if r.status = some "failed" then
    ({ acc.1 with failed := acc.1.failed + 1 }, acc.2)
  else acc

/-- The per-result loop of the full-results script over a results array,
starting from zero counters and a set flag. -/
def eoaScanResults (rs : List EoaClientResult) : StatusCounts × Bool :=
  rs.foldl eoaCount (⟨0, 0, 0⟩, true)

/-- The `allClientStatusesFinal` flag after one successful attempt:
cleared by fiat when the results array is empty on the very first
attempt, otherwise determined by scanning the results. -/
def eoaAttemptAllFinal (attempt : Nat) (rs : List EoaClientResult) : Bool :=
  if rs.isEmpty && attempt == 0 then false else (eoaScanResults rs).2

/-- What one iteration of the full-results loop decides: break out,
terminate the process via `process.exit(1)` on a 401, or continue with
the (possibly updated) stored response and the final flag. -/
inductive EoaStepRes where
  | brk (data : EoaData)
  | exitAuth
  | cont (resp : Option EoaData) (allFinal : Bool)
  deriving DecidableEq, Repr

/-- One iteration body of the full-results loop (the try/catch): on
success, store the response and break when all statuses are final and at
least one result is present; on 404, other HTTP errors, and network
errors, keep the stored response and clear the flag; on 401, exit. -/
def eoaStep (resp : Option EoaData) (attempt : Nat)
    (out : EoaFetchOutcome) : EoaStepRes :=
  match out with
  | .success data =>
      let rs := data.results.getD []
      let allFinal := eoaAttemptAllFinal attempt rs
      if allFinal && decide (0 < rs.length) then .brk data
      else .cont (some data) allFinal
  | .httpError s =>
      if s = 404 then .cont resp false
      else if s = 401 then .exitAuth
      else .cont resp false
  | .networkError => .cont resp false

/-- Observable log of a full-results-script polling run: fetch attempts
performed, sleeps taken, whether `process.exit(1)` fired inside the loop
(authentication failure), and the stored `fullApiResponse`. -/
structure EoaRunLog where
  fetches : Nat
  sleepsAfter : List (Nat × Nat)
  exitedAuth : Bool
  fullApiResponse : Option EoaData
  deriving DecidableEq, Repr

/-- The polling loop of `getFullEmailOnAcidResults`, with `fuel`
remaining iterations; the sleep at the end of a continuing iteration
fires exactly when
`attempt < MAX_POLLING_ATTEMPTS - 1 && !allClientStatusesFinal`. -/
def runEoaAux (tr : Nat → EoaFetchOutcome) :
    Nat → Nat → Option EoaData → List (Nat × Nat) → EoaRunLog
  | 0, attempt, resp, sleeps => ⟨attempt, sleeps, false, resp⟩
  | fuel + 1, attempt, resp, sleeps =>
      match eoaStep resp attempt (tr attempt) with
      | .brk d => ⟨attempt + 1, sleeps, false, some d⟩
      | .exitAuth => ⟨attempt + 1, sleeps, true, resp⟩
      | .cont r af =>
          runEoaAux tr fuel (attempt + 1) r
            (if decide (attempt < MAX_POLLING_ATTEMPTS - 1) && !af then
               sleeps ++ [(attempt, POLLING_INTERVAL_MS)]
             else sleeps)

/-- A full polling run of the full-results script against trace `tr`. -/
def runEoa (tr : Nat → EoaFetchOutcome) : EoaRunLog :=
  runEoaAux tr MAX_POLLING_ATTEMPTS 0 none []

/-! ## `globalSetup`: manifest and archive writes -/

/-- ASCII lowercasing of one character. -/
def asciiToLower (c : Char) : Char :=
  if 'A' ≤ c && c ≤ 'Z' then Char.ofNat (c.toNat + 32) else c

/-- ASCII uppercasing of one character. -/
def asciiToUpper (c : Char) : Char :=
  if 'a' ≤ c && c ≤ 'z' then Char.ofNat (c.toNat - 32) else c

/-- ASCII lowercasing, as `toLowerCase` acts on the ASCII range. -/
def jsToLower (s : String) : String := String.mk (s.data.map asciiToLower)

/-- The character class `[a-z0-9\s-.]` kept by `sanitizeFilename`. -/
def keptBySanitize (c : Char) : Bool :=
  (('a' ≤ c && c ≤ 'z') || ('0' ≤ c && c ≤ '9') ||
   c = ' ' || c = '\t' || c = '\n' || c = '\x0d' || c = '\x0c' || c = '\x0b' ||
   c = '-' || c = '.')

/-- Whitespace as matched by the regex class `\s` (ASCII part). -/
def jsIsSpace (c : Char) : Bool :=
  c = ' ' || c = '\t' || c = '\n' || c = '\x0d' || c = '\x0c' || c = '\x0b'

/-- `replace(/\s+/g, sep)`: collapse every maximal whitespace run into
the single separator character (the flag records whether the previous
character belonged to a whitespace run). -/
def collapseSpacesAux (sep : Char) : List Char → Bool → List Char
  | [], _ => []
  | c :: rest, prevSpace =>
      if jsIsSpace c then
        if prevSpace then collapseSpacesAux sep rest true
        else sep :: collapseSpacesAux sep rest true
      else c :: collapseSpacesAux sep rest false

/-- `replace(/\s+/g, sep)` on a character list. -/
def collapseSpaces (sep : Char) (cs : List Char) : List Char :=
  collapseSpacesAux sep cs false

/-- `sanitizeFilename` of src/global-setup.ts: lowercase, drop characters
outside `[a-z0-9\s-.]`, collapse whitespace runs to `-` (kebab case) or
`_`, and truncate to 100 characters. -/
def sanitizeFilename (name : String) (isKebabCase : Bool) : String :=
  let lowered := (jsToLower name).data.filter keptBySanitize
  let sep := if isKebabCase then '-' else '_'
  String.mk ((collapseSpaces sep lowered).take 100)

/-- A record of the generated-preview manifest
(`GeneratedPreview` of src/global-setup.ts). -/
structure GeneratedPreview where
  name : String
  url : String
  client : String
  deriving DecidableEq, Repr

/-- `client.replace(/_/g, ' ')`. -/
def replaceUnderscores (s : String) : String :=
  String.mk (s.data.map (fun c => if c = '_' then ' ' else c))

/-- The regex word-character class `\w` (ASCII). -/
def isWordChar (c : Char) : Bool :=
  (('a' ≤ c && c ≤ 'z') || ('A' ≤ c && c ≤ 'Z') ||
   ('0' ≤ c && c ≤ '9') || c = '_')

/-- `replace(/\b\w/g, char => char.toUpperCase())`: uppercase every word
character that starts a word (preceded by a non-word character or the
start of the string). -/
def upperWordInitials (s : String) : String :=
  String.mk
    ((s.data.foldl
        (fun (acc : List Char × Bool) c =>
          ((if isWordChar c && !acc.2 then asciiToUpper c else c) :: acc.1,
           isWordChar c))
        ([], false)).1.reverse)

/-- The display name built for each preview:
underscores to spaces, word initials uppercased, `" Preview"` suffix. -/
def previewName (client : String) : String :=
  upperWordInitials (replaceUnderscores client) ++ " Preview"

/-- `Object.entries(previewUrlsMap).map(([client, url]) => ({...}))`. -/
def buildGeneratedPreviews (previewUrlsMap : UrlMap) :
    List GeneratedPreview :=
  previewUrlsMap.map (fun kv => ⟨previewName kv.1, kv.2, kv.1⟩)

/-- JSON string escaping as performed by `JSON.stringify` on the ASCII
range: quote and backslash get a backslash, the named control characters
get their short escapes, the remaining control characters get `\u00XX`. -/
def jsonEscapeChar (c : Char) : String :=
  if c = '"' then "\\\""
  else if c = '\\' then "\\\\"
  else if c = '\x08' then "\\b"
  else if c = '\t' then "\\t"
  else if c = '\n' then "\\n"
  else if c = '\x0c' then "\\f"
  else if c = '\x0d' then "\\r"
  else if c.toNat < 32 then
    "\\u00" ++ String.mk [Nat.digitChar (c.toNat / 16), Nat.digitChar (c.toNat % 16)]
  else String.mk [c]

/-- A JSON string literal for `s`. -/
def jsonQuote (s : String) : String :=
  "\"" ++ String.join (s.data.map jsonEscapeChar) ++ "\""

/-- One element of `JSON.stringify(previews, null, 2)`: an object at
indent level one with the fields in insertion order. -/
def previewObjJson (p : GeneratedPreview) : String :=
  "  \x7b\n    \"name\": " ++ jsonQuote p.name ++
  ",\n    \"url\": " ++ jsonQuote p.url ++
  ",\n    \"client\": " ++ jsonQuote p.client ++ "\n  \x7d"

/-- `JSON.stringify(previews, null, 2)` for the manifest list. -/
def previewsJson (ps : List GeneratedPreview) : String :=
  match ps with
  | [] => "[]"
  | _ => "[\n" ++ String.intercalate ",\n" (ps.map previewObjJson) ++ "\n]"

/-- `resolve(__dirname, '..', 'temp')`, relative to the project root. -/
def TEMP_DIR : String := "temp"

/-- `resolve(TEMP_DIR, 'archives')`. -/
def ARCHIVE_DIR : String := "temp/archives"

/-- The manifest path `generated-preview-urls-<sanitizedTaskName>.json`
inside `TEMP_DIR`. -/
def generatedUrlsFile (sanitizedTaskName : String) : String :=
  TEMP_DIR ++ "/generated-preview-urls-" ++ sanitizedTaskName ++ ".json"

/-- The archive path, the manifest name with the verbose timestamp
appended, inside `ARCHIVE_DIR`. -/
def archiveFile (sanitizedTaskName verboseTimestamp : String) : String :=
  ARCHIVE_DIR ++ "/generated-preview-urls-" ++ sanitizedTaskName ++ "-" ++
    verboseTimestamp ++ ".json"

/-- The two `writeFileSync` calls of `globalSetup`'s success path, as
(path, content) pairs in program order: the manifest write and the
archive write, each serializing `generatedPreviews` with
`JSON.stringify(generatedPreviews, null, 2)`. -/
def globalSetupWrites (taskName verboseTimestamp : String)
    (previewUrlsMap : UrlMap) : List (String × String) :=
  let sanitizedTaskName := sanitizeFilename taskName false
  let generatedPreviews := buildGeneratedPreviews previewUrlsMap
  [(generatedUrlsFile sanitizedTaskName, previewsJson generatedPreviews),
   (archiveFile sanitizedTaskName verboseTimestamp,
    previewsJson generatedPreviews)]

/-! ## Gmail extractor: `getHtmlFromPayload` -/

/-- A node of the Gmail MIME part tree (`gmail_v1.Schema$MessagePart`),
restricted to the fields the walk reads: `mimeType`, `body.data` (absent
body and absent data are identified), and `parts` (an absent parts array
and an empty one behave identically in the walk). -/
inductive MessagePart where
  | mk (mimeType : Option String) (bodyData : Option String)
      (parts : List MessagePart)

/-- Index of a character in the base64 alphabet. -/
def b64Index (c : Char) : Option Nat :=
  if 'A' ≤ c ∧ c ≤ 'Z' then some (c.toNat - 65)
  else if 'a' ≤ c ∧ c ≤ 'z' then some (c.toNat - 71)
  else if '0' ≤ c ∧ c ≤ '9' then some (c.toNat + 4)
  else if c = '+' then some 62
  else if c = '/' then some 63
  else none

/-- Regroup base64 sextets into bytes; a trailing group with fewer than
two sextets contributes no byte, as in Node's forgiving decoder. -/
def b64Bytes : List Nat → List Nat
  | a :: b :: c :: d :: rest =>
      (a * 4 + b / 16) :: ((b % 16) * 16 + c / 4) :: ((c % 4) * 64 + d) ::
        b64Bytes rest
  | [a, b, c] => [a * 4 + b / 16, (b % 16) * 16 + c / 4]
  | [a, b] => [a * 4 + b / 16]
  | _ => []

/-- `Buffer.from(s, 'base64')` as a byte list: characters outside the
base64 alphabet (padding included) are ignored, full groups decode to
three bytes, trailing partial groups to at most two. -/
def b64decode (s : String) : List Nat :=
  b64Bytes (s.data.filterMap b64Index)

/-- The body-of-this-node check of `getHtmlFromPayload`: the node's own
decoded body when `mimeType === 'text/html'` and `body.data` is truthy
(present and non-empty). -/
def htmlSelf (mimeType : Option String) (bodyData : Option String) :
    Option (List Nat) :=
  if mimeType = some "text/html" then
    match bodyData with
    | some d => if d = "" then none else some (b64decode d)
    | none => none
  else none

mutual

/-- `getHtmlFromPayload` of the Gmail extractor: return this node's
decoded body when it is a truthy text/html body, else search the parts
in order; a recursive result is returned only when it passes the
JavaScript truthiness test `if (html)`, so an empty decoded body
(`some []`) from a part is skipped. -/
def getHtmlFromPayload : MessagePart → Option (List Nat)
  | .mk mimeType bodyData parts =>
      match htmlSelf mimeType bodyData with
      | some h => some h
      | none => htmlFromParts parts

/-- The `for (const part of payload.parts)` search. -/
def htmlFromParts : List MessagePart → Option (List Nat)
  | [] => none
  | p :: ps =>
      match getHtmlFromPayload p with
      | some h => if h.isEmpty then htmlFromParts ps else some h
      | none => htmlFromParts ps

end

/-! ## Claim-side definitions and concrete inputs -/

mutual

/-- The claimed reading of the Gmail walk: return the base64-decoded
body of the first part in depth-first pre-order (the node itself before
its parts, parts in list order) whose mimeType is "text/html" and whose
body data is present, and none when no such part exists. -/
def claimHtmlOf : MessagePart → Option (List Nat)
  | .mk mimeType bodyData parts =>
      if mimeType = some "text/html" ∧ bodyData.isSome then
        some (b64decode (bodyData.getD ""))
      else claimHtmlOfParts parts

/-- The pre-order search over a part list for `claimHtmlOf`. -/
def claimHtmlOfParts : List MessagePart → Option (List Nat)
  | [] => none
  | p :: ps =>
      match claimHtmlOf p with
      | some h => some h
      | none => claimHtmlOfParts ps

end

mutual

/-- Every text/html node of the tree whose body data is present carries
a non-empty string with a non-empty decoded body. -/
def goodHtmlBodies : MessagePart → Bool
  | .mk mimeType bodyData parts =>
      (if mimeType = some "text/html" then
         match bodyData with
         | some d => !(d == "") && !(b64decode d == [])
         | none => true
       else true) && goodHtmlBodiesList parts

/-- `goodHtmlBodies` over a part list. -/
def goodHtmlBodiesList : List MessagePart → Bool
  | [] => true
  | p :: ps => goodHtmlBodies p && goodHtmlBodiesList ps

end

/-- A successful fetch outcome of the `getPreviewUrls` loop in which
every monitored client is present with a terminal status. -/
def previewAllFinal (ec : List String) (out : FetchOutcome) : Prop :=
  ∃ data, out = .success data ∧
    ∀ c ∈ clientsToMonitor ec data, clientFinalized data c = true

/-- A successful fetch outcome of the full-results loop with a
non-empty results array in which no result has status "pending". -/
def eoaAllFinal (out : EoaFetchOutcome) : Prop :=
  ∃ data, out = .success data ∧ data.results.getD [] ≠ [] ∧
    ∀ r ∈ data.results.getD [], r.status ≠ some "pending"

/-- A transient fetch failure of the `getPreviewUrls` loop: an HTTP
error other than 401 (404 included), or a network error. -/
def transientOutcome (out : FetchOutcome) : Prop :=
  (∃ s, out = .httpError s ∧ s ≠ 401) ∨ out = .networkError

/-- A transient fetch failure of the full-results loop. -/
def eoaTransientOutcome (out : EoaFetchOutcome) : Prop :=
  (∃ s, out = .httpError s ∧ s ≠ 401) ∨ out = .networkError

/-- Trace whose every response parses to an empty results array. -/
def eoaEmptyTrace : Nat → EoaFetchOutcome := fun _ => .success ⟨some []⟩

/-- Trace where the single tracked client terminates as "Failed". -/
def failedClientTrace : Nat → FetchOutcome :=
  fun _ => .success [("a", ⟨"Failed", .missing⟩)]

/-- First response of the shrinking-keys trace: clients "a" and "b",
both still processing. -/
def c6Resp0 : ApiResults :=
  [("a", ⟨"Processing", .missing⟩), ("b", ⟨"Processing", .missing⟩)]

/-- Later responses of the shrinking-keys trace: only client "a",
complete with a URL; client "b" never appears again. -/
def c6Resp1 : ApiResults := [("a", ⟨"Complete", .str "u"⟩)]

/-- A trace whose key set shrinks between responses. -/
def shrinkingKeysTrace : Nat → FetchOutcome :=
  fun n => if n = 0 then .success c6Resp0 else .success c6Resp1

/-- Trace whose single result carries the status "processing", which is
not one of the three counted statuses of the full-results script. -/
def processingStatusTrace : Nat → EoaFetchOutcome :=
  fun _ => .success ⟨some [⟨some "processing"⟩]⟩

/-- A payload whose first text/html part has present body data ("A")
that decodes to the empty byte string, followed by a text/html part
decoding to "hi". -/
def c9Payload : MessagePart :=
  .mk (some "multipart/alternative") none
    [.mk (some "text/html") (some "A") [],
     .mk (some "text/html") (some "aGk=") []]

/-- The provenance of a stored URL-map entry: at some fetch attempt
before `bound`, the response contained this client with status
"Complete" and this very string as the default screenshot URL. -/
def urlProvenance (tr : Nat → FetchOutcome) (bound : Nat)
    (kv : String × String) : Prop :=
  ∃ i, i < bound ∧ ∃ data cr, tr i = .success data ∧
    lookupKey data kv.1 = some cr ∧ cr.status = "Complete" ∧
    cr.screenshotsDefault = JsField.str kv.2

/-- A successful fetch whose parsed body carries no results
(`fullApiResponse?.results || []` empty). -/
def eoaEmptySuccess (out : EoaFetchOutcome) : Prop :=
  ∃ data, out = .success data ∧ data.results.getD [] = []

/-! ## Lemmas: the URL map -/

theorem mem_setKey {m : UrlMap} {k v : String} {kv : String × String}
    (h : kv ∈ setKey m k v) : kv ∈ m ∨ kv = (k, v) := by
  induction m with
  | nil => simpa [setKey] using h
  | cons hd tl ih =>
      obtain ⟨k', v'⟩ := hd
      by_cases hk : k' = k
      · simp only [setKey, if_pos hk] at h
        rcases List.mem_cons.mp h with h1 | h1
        · right; rw [h1, hk]
        · left; exact List.mem_cons_of_mem _ h1
      · simp only [setKey, if_neg hk] at h
        rcases List.mem_cons.mp h with h1 | h1
        · left; exact h1 ▸ List.mem_cons_self _ _
        · rcases ih h1 with h2 | h2
          · left; exact List.mem_cons_of_mem _ h2
          · right; exact h2

theorem lookupKey_setKey (m : UrlMap) (k v k' : String) :
    lookupKey (setKey m k v) k' =
      if k = k' then some v else lookupKey m k' := by
  induction m with
  | nil => by_cases hk : k = k' <;> simp [setKey, lookupKey, hk]
  | cons hd tl ih =>
      obtain ⟨k0, v0⟩ := hd
      by_cases h0 : k0 = k
      · subst h0
        by_cases hk : k0 = k' <;> simp [setKey, lookupKey, hk]
      · by_cases hk : k0 = k'
        · have hkk' : ¬ (k = k') := fun h1 => h0 (hk.trans h1.symm)
          have hk'k : ¬ (k' = k) := fun h1 => hkk' h1.symm
          simp [setKey, lookupKey, h0, hk, hkk', hk'k]
        · simp [setKey, lookupKey, h0, hk, ih]

/-! ## Lemmas: one polling attempt of `getPreviewUrls` -/

theorem defaultUrlOf_eq_some {f : JsField} {s : String}
    (h : defaultUrlOf f = some s) : f = JsField.str s := by
  cases f with
  | missing => simp [defaultUrlOf] at h
  | nonString => simp [defaultUrlOf] at h
  | str s' =>
      by_cases hs : s' = "" <;> simp [defaultUrlOf, hs] at h
      rw [h]

theorem pollClientStep_allProcessed {data : ApiResults} {st : AttemptState}
    {cid : String}
    (h : (pollClientStep data st cid).allProcessed = true) :
    st.allProcessed = true ∧ clientFinalized data cid = true := by
  unfold pollClientStep at h
  split at h
  next heq => simp at h
  next cr heq =>
    have hfin : clientFinalized data cid = isFinalStatus cr.status := by
      unfold clientFinalized
      rw [heq]
    split at h
    next hc =>
      split at h
      next s hd => exact ⟨h, by rw [hfin]; simp [isFinalStatus, hc]⟩
      next hd => simp at h
    next hc =>
      split at h
      next hf =>
        refine ⟨h, ?_⟩
        rw [hfin]
        rcases hf with hf | hf <;> simp [isFinalStatus, hf]
      next hf => simp at h

theorem pollClientStep_urls_mem {data : ApiResults} {st : AttemptState}
    {cid : String} {kv : String × String}
    (h : kv ∈ (pollClientStep data st cid).urls) :
    kv ∈ st.urls ∨
      (kv.1 = cid ∧ ∃ cr, lookupKey data cid = some cr ∧
        cr.status = "Complete" ∧
        cr.screenshotsDefault = JsField.str kv.2) := by
  unfold pollClientStep at h
  split at h
  next heq => exact Or.inl h
  next cr heq =>
    split at h
    next hc =>
      split at h
      next s hd =>
        rcases mem_setKey h with h1 | h1
        · exact Or.inl h1
        · refine Or.inr ⟨by rw [h1], cr, heq, hc, ?_⟩
          rw [h1]
          exact defaultUrlOf_eq_some hd
      next hd => exact Or.inl h
    next hc =>
      split at h
      next hf => exact Or.inl h
      next hf => exact Or.inl h

theorem pollClientStep_lookup {data : ApiResults} {st : AttemptState}
    {cid k v : String} (h : lookupKey st.urls k = some v) :
    ∃ v', lookupKey (pollClientStep data st cid).urls k = some v' ∧
      (v' = v ∨ (k = cid ∧ ∃ cr, lookupKey data cid = some cr ∧
        cr.status = "Complete" ∧
        cr.screenshotsDefault = JsField.str v')) := by
  unfold pollClientStep
  split
  next heq => exact ⟨v, h, Or.inl rfl⟩
  next cr heq =>
    split
    next hc =>
      split
      next s hd =>
        by_cases hk : cid = k
        · refine ⟨s, ?_, Or.inr ⟨hk.symm, cr, heq, hc,
            defaultUrlOf_eq_some hd⟩⟩
          show lookupKey (setKey st.urls cid s) k = some s
          rw [lookupKey_setKey, if_pos hk]
        · refine ⟨v, ?_, Or.inl rfl⟩
          show lookupKey (setKey st.urls cid s) k = some v
          rw [lookupKey_setKey, if_neg hk]
          exact h
      next hd => exact ⟨v, h, Or.inl rfl⟩
    next hc =>
      split
      next hf => exact ⟨v, h, Or.inl rfl⟩
      next hf => exact ⟨v, h, Or.inl rfl⟩

theorem foldl_pollClientStep_allProcessed {data : ApiResults}
    {l : List String} {st : AttemptState}
    (h : (l.foldl (pollClientStep data) st).allProcessed = true) :
    st.allProcessed = true ∧ ∀ c ∈ l, clientFinalized data c = true := by
  induction l generalizing st with
  | nil => exact ⟨h, by simp⟩
  | cons c cs ih =>
      obtain ⟨h1, h2⟩ := ih h
      obtain ⟨h3, h4⟩ := pollClientStep_allProcessed h1
      refine ⟨h3, ?_⟩
      intro c' hc'
      rcases List.mem_cons.mp hc' with h5 | h5
      · rw [h5]; exact h4
      · exact h2 c' h5

theorem foldl_pollClientStep_urls_mem {data : ApiResults} {l : List String}
    {st : AttemptState} {kv : String × String}
    (h : kv ∈ (l.foldl (pollClientStep data) st).urls) :
    kv ∈ st.urls ∨ (kv.1 ∈ l ∧ ∃ cr, lookupKey data kv.1 = some cr ∧
      cr.status = "Complete" ∧
      cr.screenshotsDefault = JsField.str kv.2) := by
  induction l generalizing st with
  | nil => exact Or.inl h
  | cons c cs ih =>
      rcases ih h with h1 | h1
      · rcases pollClientStep_urls_mem h1 with h2 | h2
        · exact Or.inl h2
        · obtain ⟨h3, cr, h4, h5, h6⟩ := h2
          exact Or.inr ⟨by rw [h3]; exact List.mem_cons_self _ _,
            cr, by rw [h3]; exact h4, h5, h6⟩
      · exact Or.inr ⟨List.mem_cons_of_mem _ h1.1, h1.2⟩

theorem foldl_pollClientStep_lookup {data : ApiResults} {l : List String}
    {st : AttemptState} {k v : String}
    (h : lookupKey st.urls k = some v) :
    ∃ v', lookupKey ((l.foldl (pollClientStep data) st).urls) k = some v' := by
  induction l generalizing st v with
  | nil => exact ⟨v, h⟩
  | cons c cs ih =>
      obtain ⟨v', h1, -⟩ := @pollClientStep_lookup data st c k v h
      exact ih h1

theorem foldl_pollClientStep_dom {data : ApiResults} {l : List String}
    {st : AttemptState} {k v : String}
    (h : lookupKey st.urls k = some v) :
    ∃ v', lookupKey ((l.foldl (pollClientStep data) st).urls) k = some v' :=
  foldl_pollClientStep_lookup h

theorem attemptOnSuccess_fst (ec : List String) (urls : UrlMap)
    (data : ApiResults) :
    (attemptOnSuccess ec urls data).1 =
      (clientsToMonitor ec data).foldl (pollClientStep data)
        ⟨urls,
         !(data.isEmpty && !(clientsToMonitor ec data).isEmpty)⟩ := rfl

theorem attemptOnSuccess_snd (ec : List String) (urls : UrlMap)
    (data : ApiResults) :
    (attemptOnSuccess ec urls data).2 =
      (((clientsToMonitor ec data).filter (clientFinalized data)).length ==
        (clientsToMonitor ec data).length) := rfl

theorem attemptOnSuccess_snd_true_iff {ec : List String} {urls : UrlMap}
    {data : ApiResults} :
    (attemptOnSuccess ec urls data).2 = true ↔
      ∀ c ∈ clientsToMonitor ec data, clientFinalized data c = true := by
  rw [attemptOnSuccess_snd, beq_iff_eq]
  exact List.filter_length_eq_length

theorem attemptOnSuccess_allProcessed {ec : List String} {urls : UrlMap}
    {data : ApiResults}
    (h : (attemptOnSuccess ec urls data).1.allProcessed = true) :
    (attemptOnSuccess ec urls data).2 = true := by
  rw [attemptOnSuccess_fst] at h
  obtain ⟨-, h2⟩ := foldl_pollClientStep_allProcessed h
  exact attemptOnSuccess_snd_true_iff.mpr h2

/-! ## Lemmas: one loop iteration of `getPreviewUrls` -/

theorem pollStep_success_brk {ec : List String} {urls : UrlMap}
    {data : ApiResults}
    (h : ∀ c ∈ clientsToMonitor ec data, clientFinalized data c = true) :
    pollStep ec urls (.success data) =
      .brk (attemptOnSuccess ec urls data).1.urls := by
  unfold pollStep
  simp [attemptOnSuccess_snd_true_iff.mpr h]

theorem pollStep_success_not_brk {ec : List String} {urls : UrlMap}
    {data : ApiResults}
    (h : ¬ ∀ c ∈ clientsToMonitor ec data, clientFinalized data c = true) :
    pollStep ec urls (.success data) =
      .cont (attemptOnSuccess ec urls data).1.urls
        (attemptOnSuccess ec urls data).1.allProcessed := by
  unfold pollStep
  have hb : (attemptOnSuccess ec urls data).2 = false := by
    cases h1 : (attemptOnSuccess ec urls data).2
    · rfl
    · exact absurd (attemptOnSuccess_snd_true_iff.mp h1) h
  simp [hb]

theorem pollStep_cont_false {ec : List String} {urls u : UrlMap}
    {out : FetchOutcome} {ap : Bool}
    (h : pollStep ec urls out = .cont u ap) : ap = false := by
  cases out with
  | success data =>
      unfold pollStep at h
      by_cases hb : (attemptOnSuccess ec urls data).2 = true
      · simp [hb] at h
      · simp [hb] at h
        cases h1 : (attemptOnSuccess ec urls data).1.allProcessed
        · rw [← h.2, h1]
        · exact absurd (attemptOnSuccess_allProcessed h1) hb
  | httpError s =>
      unfold pollStep at h
      by_cases h4 : s = 404
      · simp [h4] at h
        exact h.2
      · by_cases h1 : s = 401
        · simp [h4, h1] at h
        · simp [h4, h1] at h
          exact h.2
  | networkError =>
      unfold pollStep at h
      cases h
      rfl

theorem pollStep_401 (ec : List String) (urls : UrlMap) :
    pollStep ec urls (.httpError 401) = .throwAuth := by
  unfold pollStep
  norm_num

theorem pollStep_httpError_ne401 {s : Nat} (ec : List String)
    (urls : UrlMap) (h : s ≠ 401) :
    pollStep ec urls (.httpError s) = .cont urls false := by
  unfold pollStep
  by_cases h4 : s = 404 <;> simp [h4, h]

theorem pollStep_network (ec : List String) (urls : UrlMap) :
    pollStep ec urls .networkError = .cont urls false := rfl

theorem pollStep_throwAuth_inv {ec : List String} {urls : UrlMap}
    {out : FetchOutcome} (h : pollStep ec urls out = .throwAuth) :
    out = .httpError 401 := by
  cases out with
  | success data =>
      unfold pollStep at h
      by_cases hb : (attemptOnSuccess ec urls data).2 = true <;>
        simp [hb] at h
  | httpError s =>
      by_cases h1 : s = 401
      · rw [h1]
      · rw [pollStep_httpError_ne401 ec urls h1] at h
        cases h
  | networkError => cases h

theorem pollStep_brk_inv {ec : List String} {urls u : UrlMap}
    {out : FetchOutcome} (h : pollStep ec urls out = .brk u) :
    ∃ data, out = .success data ∧
      u = (attemptOnSuccess ec urls data).1.urls := by
  cases out with
  | success data =>
      unfold pollStep at h
      by_cases hb : (attemptOnSuccess ec urls data).2 = true
      · simp [hb] at h
        exact ⟨data, rfl, h.symm⟩
      · simp [hb] at h
  | httpError s =>
      unfold pollStep at h
      by_cases h4 : s = 404
      · simp [h4] at h
      · by_cases h1 : s = 401 <;> simp [h4, h1] at h
  | networkError => cases h

theorem pollStep_cont_inv {ec : List String} {urls u : UrlMap}
    {out : FetchOutcome} {ap : Bool}
    (h : pollStep ec urls out = .cont u ap) :
    u = urls ∨ ∃ data, out = .success data ∧
      u = (attemptOnSuccess ec urls data).1.urls := by
  cases out with
  | success data =>
      unfold pollStep at h
      by_cases hb : (attemptOnSuccess ec urls data).2 = true
      · simp [hb] at h
      · simp [hb] at h
        exact Or.inr ⟨data, rfl, h.1.symm⟩
  | httpError s =>
      unfold pollStep at h
      by_cases h4 : s = 404
      · simp [h4] at h
        exact Or.inl h.1.symm
      · by_cases h1 : s = 401
        · simp [h4, h1] at h
        · simp [h4, h1] at h
          exact Or.inl h.1.symm
  | networkError =>
      cases h
      exact Or.inl rfl

/-! ## Lemmas: the `getPreviewUrls` polling loop -/

theorem runPollAux_fetches_le (ec : List String) (tr : Nat → FetchOutcome) :
    ∀ fuel attempt urls sleeps,
      (runPollAux ec tr fuel attempt urls sleeps).fetches ≤ attempt + fuel := by
  intro fuel
  induction fuel with
  | zero => intro attempt urls sleeps; exact Nat.le_refl _
  | succ n ih =>
      intro attempt urls sleeps
      unfold runPollAux
      cases hs : pollStep ec urls (tr attempt) with
      | brk u => show attempt + 1 ≤ attempt + (n + 1); omega
      | throwAuth => show attempt + 1 ≤ attempt + (n + 1); omega
      | cont u ap =>
          refine Nat.le_trans (ih (attempt + 1) u _) (by omega)

theorem runPollAux_fetches_ge (ec : List String) (tr : Nat → FetchOutcome) :
    ∀ fuel attempt urls sleeps,
      attempt ≤ (runPollAux ec tr fuel attempt urls sleeps).fetches := by
  intro fuel
  induction fuel with
  | zero => intro attempt urls sleeps; exact Nat.le_refl _
  | succ n ih =>
      intro attempt urls sleeps
      unfold runPollAux
      cases hs : pollStep ec urls (tr attempt) with
      | brk u => show attempt ≤ attempt + 1; omega
      | throwAuth => show attempt ≤ attempt + 1; omega
      | cont u ap =>
          refine Nat.le_trans (by omega) (ih (attempt + 1) u _)

theorem runPollAux_fetches_ge_succ (ec : List String)
    (tr : Nat → FetchOutcome) :
    ∀ fuel attempt urls sleeps, 1 ≤ fuel →
      attempt + 1 ≤ (runPollAux ec tr fuel attempt urls sleeps).fetches := by
  intro fuel
  cases fuel with
  | zero => intro attempt urls sleeps h; omega
  | succ n =>
      intro attempt urls sleeps _
      unfold runPollAux
      cases hs : pollStep ec urls (tr attempt) with
      | brk u => exact Nat.le_refl _
      | throwAuth => exact Nat.le_refl _
      | cont u ap =>
          exact runPollAux_fetches_ge ec tr n (attempt + 1) u _

theorem runPollAux_sleeps_mono (ec : List String) (tr : Nat → FetchOutcome)
    {x : Nat × Nat} :
    ∀ fuel attempt urls sleeps, x ∈ sleeps →
      x ∈ (runPollAux ec tr fuel attempt urls sleeps).sleepsAfter := by
  intro fuel
  induction fuel with
  | zero => intro attempt urls sleeps hx; exact hx
  | succ n ih =>
      intro attempt urls sleeps hx
      unfold runPollAux
      cases hs : pollStep ec urls (tr attempt) with
      | brk u => exact hx
      | throwAuth => exact hx
      | cont u ap =>
          refine ih (attempt + 1) u _ ?_
          split
          · exact List.mem_append_left _ hx
          · exact hx

theorem runPollAux_sleeps_src (ec : List String) (tr : Nat → FetchOutcome)
    {x : Nat × Nat} :
    ∀ fuel attempt urls sleeps,
      x ∈ (runPollAux ec tr fuel attempt urls sleeps).sleepsAfter →
      x ∈ sleeps ∨ x.2 = POLLING_INTERVAL_MS := by
  intro fuel
  induction fuel with
  | zero => intro attempt urls sleeps hx; exact Or.inl hx
  | succ n ih =>
      intro attempt urls sleeps hx
      unfold runPollAux at hx
      cases hs : pollStep ec urls (tr attempt) with
      | brk u => rw [hs] at hx; exact Or.inl hx
      | throwAuth => rw [hs] at hx; exact Or.inl hx
      | cont u ap =>
          rw [hs] at hx
          rcases ih (attempt + 1) u _ hx with h1 | h1
          · revert h1
            split
            · intro h1
              rcases List.mem_append.mp h1 with h2 | h2
              · exact Or.inl h2
              · right
                rw [List.mem_singleton.mp h2]
            · intro h1
              exact Or.inl h1
          · exact Or.inr h1

theorem runPollAux_sleeps_strict (ec : List String)
    (tr : Nat → FetchOutcome) :
    ∀ fuel attempt urls sleeps,
      attempt + fuel = MAX_POLLING_ATTEMPTS →
      (∀ y ∈ sleeps, y.1 + 1 ≤ attempt ∧
        y.1 < MAX_POLLING_ATTEMPTS - 1) →
      ∀ y ∈ (runPollAux ec tr fuel attempt urls sleeps).sleepsAfter,
        y.1 + 1 < (runPollAux ec tr fuel attempt urls sleeps).fetches := by
  intro fuel
  induction fuel with
  | zero =>
      intro attempt urls sleeps hta hs y hy
      have h1 := hs y hy
      show y.1 + 1 < attempt
      simp [MAX_POLLING_ATTEMPTS] at hta h1
      omega
  | succ n ih =>
      intro attempt urls sleeps hta hs y hy
      unfold runPollAux at hy ⊢
      cases hstep : pollStep ec urls (tr attempt) with
      | brk u =>
          rw [hstep] at hy
          have h1 := hs y hy
          show y.1 + 1 < attempt + 1
          omega
      | throwAuth =>
          rw [hstep] at hy
          have h1 := hs y hy
          show y.1 + 1 < attempt + 1
          omega
      | cont u ap =>
          rw [hstep] at hy
          refine ih (attempt + 1) u _ (by omega) ?_ y hy
          intro z hz
          revert hz
          split
          next hcond =>
            intro hz
            rcases List.mem_append.mp hz with h2 | h2
            · have h3 := hs z h2
              exact ⟨by omega, h3.2⟩
            · rw [List.mem_singleton.mp h2]
              refine ⟨Nat.le_refl _, ?_⟩
              have h4 := Bool.and_elim_left hcond
              simpa using of_decide_eq_true h4
          next hcond =>
            intro hz
            have h3 := hs z hz
            exact ⟨by omega, h3.2⟩

theorem runPollAux_brk (ec : List String) (tr : Nat → FetchOutcome)
    {i : Nat} {data : ApiResults} (hi : tr i = .success data)
    (hfin : ∀ c ∈ clientsToMonitor ec data, clientFinalized data c = true) :
    ∀ fuel attempt urls sleeps, attempt ≤ i →
      i < (runPollAux ec tr fuel attempt urls sleeps).fetches →
      (runPollAux ec tr fuel attempt urls sleeps).fetches = i + 1 ∧
      ∃ m, (runPollAux ec tr fuel attempt urls sleeps).result = .ok m := by
  intro fuel
  induction fuel with
  | zero =>
      intro attempt urls sleeps hai hlt
      exact absurd hlt (by simp [runPollAux]; omega)
  | succ n ih =>
      intro attempt urls sleeps hai hlt
      rcases Nat.eq_or_lt_of_le hai with heq | hlt2
      · subst heq
        have hstep : pollStep ec urls (tr attempt) =
            .brk (attemptOnSuccess ec urls data).1.urls := by
          rw [hi]
          exact pollStep_success_brk hfin
        unfold runPollAux
        rw [hstep]
        exact ⟨rfl, (attemptOnSuccess ec urls data).1.urls, rfl⟩
      · unfold runPollAux at hlt ⊢
        cases hstep : pollStep ec urls (tr attempt) with
        | brk u =>
            rw [hstep] at hlt
            have h1 : i < attempt + 1 := hlt
            omega
        | throwAuth =>
            rw [hstep] at hlt
            have h1 : i < attempt + 1 := hlt
            omega
        | cont u ap =>
            rw [hstep] at hlt
            exact ih (attempt + 1) u _ hlt2 hlt

theorem runPollAux_auth (ec : List String) (tr : Nat → FetchOutcome)
    {i : Nat} (hi : tr i = .httpError 401) :
    ∀ fuel attempt urls sleeps, (∀ y ∈ sleeps, y.1 < attempt) →
      attempt ≤ i →
      i < (runPollAux ec tr fuel attempt urls sleeps).fetches →
      (runPollAux ec tr fuel attempt urls sleeps).fetches = i + 1 ∧
      (runPollAux ec tr fuel attempt urls sleeps).result = .authError ∧
      ∀ y ∈ (runPollAux ec tr fuel attempt urls sleeps).sleepsAfter,
        y.1 < i := by
  intro fuel
  induction fuel with
  | zero =>
      intro attempt urls sleeps hsl hai hlt
      exact absurd hlt (by simp [runPollAux]; omega)
  | succ n ih =>
      intro attempt urls sleeps hsl hai hlt
      rcases Nat.eq_or_lt_of_le hai with heq | hlt2
      · subst heq
        have hstep : pollStep ec urls (tr attempt) = .throwAuth := by
          rw [hi]
          exact pollStep_401 ec urls
        unfold runPollAux
        rw [hstep]
        exact ⟨rfl, rfl, hsl⟩
      · unfold runPollAux at hlt ⊢
        cases hstep : pollStep ec urls (tr attempt) with
        | brk u =>
            rw [hstep] at hlt
            have h1 : i < attempt + 1 := hlt
            omega
        | throwAuth =>
            rw [hstep] at hlt
            have h1 : i < attempt + 1 := hlt
            omega
        | cont u ap =>
            rw [hstep] at hlt
            refine ih (attempt + 1) u _ ?_ hlt2 hlt
            intro z hz
            revert hz
            split
            · intro hz
              rcases List.mem_append.mp hz with h2 | h2
              · exact Nat.lt_succ_of_lt (hsl z h2)
              · rw [List.mem_singleton.mp h2]
                exact Nat.lt_succ_self _
            · intro hz
              exact Nat.lt_succ_of_lt (hsl z hz)

theorem runPollAux_continues (ec : List String) (tr : Nat → FetchOutcome)
    {i : Nat}
    (hc : ∀ urls, ∃ u, pollStep ec urls (tr i) = .cont u false) :
    ∀ fuel attempt urls sleeps,
      attempt + fuel = MAX_POLLING_ATTEMPTS → attempt ≤ i →
      i < (runPollAux ec tr fuel attempt urls sleeps).fetches →
      i + 1 < MAX_POLLING_ATTEMPTS →
      i + 1 < (runPollAux ec tr fuel attempt urls sleeps).fetches := by
  intro fuel
  induction fuel with
  | zero =>
      intro attempt urls sleeps hta hai hlt hmax
      exact absurd hlt (by simp [runPollAux]; omega)
  | succ n ih =>
      intro attempt urls sleeps hta hai hlt hmax
      rcases Nat.eq_or_lt_of_le hai with heq | hlt2
      · subst heq
        obtain ⟨u, hstep⟩ := hc urls
        unfold runPollAux
        rw [hstep]
        show attempt + 1 <
          (runPollAux ec tr n (attempt + 1) u _).fetches
        refine Nat.lt_of_lt_of_le (Nat.lt_succ_self _) ?_
        refine runPollAux_fetches_ge_succ ec tr n (attempt + 1) u _ ?_
        simp [MAX_POLLING_ATTEMPTS] at hta hmax
        omega
      · unfold runPollAux at hlt ⊢
        cases hstep : pollStep ec urls (tr attempt) with
        | brk u =>
            rw [hstep] at hlt
            have h1 : i < attempt + 1 := hlt
            omega
        | throwAuth =>
            rw [hstep] at hlt
            have h1 : i < attempt + 1 := hlt
            omega
        | cont u ap =>
            rw [hstep] at hlt
            exact ih (attempt + 1) u _ (by omega) hlt2 hlt hmax

theorem runPollAux_sleep_between (ec : List String)
    (tr : Nat → FetchOutcome) {i : Nat} :
    ∀ fuel attempt urls sleeps,
      attempt + fuel = MAX_POLLING_ATTEMPTS → attempt ≤ i →
      i + 1 < (runPollAux ec tr fuel attempt urls sleeps).fetches →
      (i, POLLING_INTERVAL_MS) ∈
        (runPollAux ec tr fuel attempt urls sleeps).sleepsAfter := by
  intro fuel
  induction fuel with
  | zero =>
      intro attempt urls sleeps hta hai hlt
      exact absurd hlt (by simp [runPollAux]; omega)
  | succ n ih =>
      intro attempt urls sleeps hta hai hlt
      have hle := runPollAux_fetches_le ec tr (n + 1) attempt urls sleeps
      rcases Nat.eq_or_lt_of_le hai with heq | hlt2
      · subst heq
        unfold runPollAux at hlt ⊢
        cases hstep : pollStep ec urls (tr attempt) with
        | brk u =>
            rw [hstep] at hlt
            have h1 : attempt + 1 < attempt + 1 := hlt
            omega
        | throwAuth =>
            rw [hstep] at hlt
            have h1 : attempt + 1 < attempt + 1 := hlt
            omega
        | cont u ap =>
            rw [hstep] at hlt
            have hap : ap = false := pollStep_cont_false hstep
            have hcond : attempt < MAX_POLLING_ATTEMPTS - 1 := by
              have h2 := runPollAux_fetches_le ec tr n (attempt + 1) u
                (if (decide (attempt < MAX_POLLING_ATTEMPTS - 1) && !ap) =
                    true then
                   sleeps ++ [(attempt, POLLING_INTERVAL_MS)]
                 else sleeps)
              simp [MAX_POLLING_ATTEMPTS] at hta h2 hlt ⊢
              omega
            refine runPollAux_sleeps_mono ec tr n (attempt + 1) u _ ?_
            rw [hap]
            simp [hcond]
      · unfold runPollAux at hlt ⊢
        cases hstep : pollStep ec urls (tr attempt) with
        | brk u =>
            rw [hstep] at hlt
            have h1 : i + 1 < attempt + 1 := hlt
            omega
        | throwAuth =>
            rw [hstep] at hlt
            have h1 : i + 1 < attempt + 1 := hlt
            omega
        | cont u ap =>
            rw [hstep] at hlt
            exact ih (attempt + 1) u _ (by omega) hlt2 hlt

theorem clientsToMonitor_of_ne {ec : List String} (h : ec ≠ [])
    (data : ApiResults) : clientsToMonitor ec data = ec := by
  cases ec with
  | nil => exact absurd rfl h
  | cons a t => rfl

theorem attemptOnSuccess_urls_mem {ec : List String} {urls : UrlMap}
    {data : ApiResults} {kv : String × String}
    (h : kv ∈ (attemptOnSuccess ec urls data).1.urls) :
    kv ∈ urls ∨ (kv.1 ∈ clientsToMonitor ec data ∧ ∃ cr,
      lookupKey data kv.1 = some cr ∧ cr.status = "Complete" ∧
      cr.screenshotsDefault = JsField.str kv.2) := by
  rw [attemptOnSuccess_fst] at h
  exact foldl_pollClientStep_urls_mem h

theorem attemptOnSuccess_dom {ec : List String} {urls : UrlMap}
    {data : ApiResults} {k v : String}
    (h : lookupKey urls k = some v) :
    ∃ v', lookupKey (attemptOnSuccess ec urls data).1.urls k = some v' := by
  rw [attemptOnSuccess_fst]
  exact foldl_pollClientStep_dom h

theorem urlProvenance_mono {tr : Nat → FetchOutcome} {b b' : Nat}
    {kv : String × String} (h : b ≤ b') (hp : urlProvenance tr b kv) :
    urlProvenance tr b' kv := by
  obtain ⟨i, hi, rest⟩ := hp
  exact ⟨i, Nat.lt_of_lt_of_le hi h, rest⟩

theorem runPollAux_result_mem (ec : List String) (tr : Nat → FetchOutcome) :
    ∀ fuel attempt urls sleeps m,
      (∀ kv ∈ urls, urlProvenance tr attempt kv) →
      (runPollAux ec tr fuel attempt urls sleeps).result = .ok m →
      ∀ kv ∈ m,
        urlProvenance tr
          (runPollAux ec tr fuel attempt urls sleeps).fetches kv := by
  intro fuel
  induction fuel with
  | zero =>
      intro attempt urls sleeps m hinv hok kv hkv
      have h : PollResult.ok urls = PollResult.ok m := hok
      injection h with h2
      subst h2
      exact hinv kv hkv
  | succ n ih =>
      intro attempt urls sleeps m hinv hok kv hkv
      unfold runPollAux at hok ⊢
      cases hstep : pollStep ec urls (tr attempt) with
      | brk u =>
          rw [hstep] at hok
          have h : PollResult.ok u = PollResult.ok m := hok
          injection h with h2
          subst h2
          obtain ⟨data, hdata, hu⟩ := pollStep_brk_inv hstep
          rw [hu] at hkv
          show urlProvenance tr (attempt + 1) kv
          rcases attemptOnSuccess_urls_mem hkv with h3 | h3
          · exact urlProvenance_mono (Nat.le_succ _) (hinv kv h3)
          · obtain ⟨-, cr, hcr1, hcr2, hcr3⟩ := h3
            exact ⟨attempt, Nat.lt_succ_self _, data, cr, hdata, hcr1,
              hcr2, hcr3⟩
      | throwAuth =>
          rw [hstep] at hok
          exact PollResult.noConfusion hok
      | cont u ap =>
          rw [hstep] at hok
          show urlProvenance tr
            (runPollAux ec tr n (attempt + 1) u _).fetches kv
          refine ih (attempt + 1) u _ m ?_ hok kv hkv
          intro kv' hkv'
          rcases pollStep_cont_inv hstep with h1 | h1
          · rw [h1] at hkv'
            exact urlProvenance_mono (Nat.le_succ _) (hinv kv' hkv')
          · obtain ⟨data, hdata, hu⟩ := h1
            rw [hu] at hkv'
            rcases attemptOnSuccess_urls_mem hkv' with h3 | h3
            · exact urlProvenance_mono (Nat.le_succ _) (hinv kv' h3)
            · obtain ⟨-, cr, hcr1, hcr2, hcr3⟩ := h3
              exact ⟨attempt, Nat.lt_succ_self _, data, cr, hdata, hcr1,
                hcr2, hcr3⟩

theorem runPollAux_result_keys (ec : List String) (tr : Nat → FetchOutcome)
    (hne : ec ≠ []) :
    ∀ fuel attempt urls sleeps m,
      (∀ kv ∈ urls, kv.1 ∈ ec) →
      (runPollAux ec tr fuel attempt urls sleeps).result = .ok m →
      ∀ kv ∈ m, kv.1 ∈ ec := by
  intro fuel
  induction fuel with
  | zero =>
      intro attempt urls sleeps m hinv hok kv hkv
      have h : PollResult.ok urls = PollResult.ok m := hok
      injection h with h2
      subst h2
      exact hinv kv hkv
  | succ n ih =>
      intro attempt urls sleeps m hinv hok kv hkv
      unfold runPollAux at hok
      cases hstep : pollStep ec urls (tr attempt) with
      | brk u =>
          rw [hstep] at hok
          have h : PollResult.ok u = PollResult.ok m := hok
          injection h with h2
          subst h2
          obtain ⟨data, -, hu⟩ := pollStep_brk_inv hstep
          rw [hu] at hkv
          rcases attemptOnSuccess_urls_mem hkv with h3 | h3
          · exact hinv kv h3
          · rw [clientsToMonitor_of_ne hne data] at h3
            exact h3.1
      | throwAuth =>
          rw [hstep] at hok
          exact PollResult.noConfusion hok
      | cont u ap =>
          rw [hstep] at hok
          refine ih (attempt + 1) u _ m ?_ hok kv hkv
          intro kv' hkv'
          rcases pollStep_cont_inv hstep with h1 | h1
          · rw [h1] at hkv'
            exact hinv kv' hkv'
          · obtain ⟨data, -, hu⟩ := h1
            rw [hu] at hkv'
            rcases attemptOnSuccess_urls_mem hkv' with h3 | h3
            · exact hinv kv' h3
            · rw [clientsToMonitor_of_ne hne data] at h3
              exact h3.1

theorem runPollAux_result_ok (ec : List String) (tr : Nat → FetchOutcome) :
    ∀ fuel attempt urls sleeps,
      (∀ j, attempt ≤ j → tr j ≠ .httpError 401) →
      ∃ m, (runPollAux ec tr fuel attempt urls sleeps).result = .ok m := by
  intro fuel
  induction fuel with
  | zero =>
      intro attempt urls sleeps h401
      exact ⟨urls, rfl⟩
  | succ n ih =>
      intro attempt urls sleeps h401
      unfold runPollAux
      cases hstep : pollStep ec urls (tr attempt) with
      | brk u => exact ⟨u, rfl⟩
      | throwAuth =>
          exact absurd (pollStep_throwAuth_inv hstep)
            (h401 attempt (Nat.le_refl _))
      | cont u ap =>
          refine ih (attempt + 1) u _ ?_
          intro j hj
          exact h401 j (by omega)

theorem runPollAux_persist (ec : List String) (tr : Nat → FetchOutcome) :
    ∀ fuel attempt urls sleeps m k v,
      lookupKey urls k = some v →
      (runPollAux ec tr fuel attempt urls sleeps).result = .ok m →
      ∃ v', lookupKey m k = some v' := by
  intro fuel
  induction fuel with
  | zero =>
      intro attempt urls sleeps m k v hk hok
      have h : PollResult.ok urls = PollResult.ok m := hok
      injection h with h2
      subst h2
      exact ⟨v, hk⟩
  | succ n ih =>
      intro attempt urls sleeps m k v hk hok
      unfold runPollAux at hok
      cases hstep : pollStep ec urls (tr attempt) with
      | brk u =>
          rw [hstep] at hok
          have h : PollResult.ok u = PollResult.ok m := hok
          injection h with h2
          subst h2
          obtain ⟨data, -, hu⟩ := pollStep_brk_inv hstep
          rw [hu]
          exact attemptOnSuccess_dom hk
      | throwAuth =>
          rw [hstep] at hok
          exact PollResult.noConfusion hok
      | cont u ap =>
          rw [hstep] at hok
          rcases pollStep_cont_inv hstep with h1 | h1
          · rw [h1] at hok
            exact ih (attempt + 1) urls _ m k v hk hok
          · obtain ⟨data, -, hu⟩ := h1
            obtain ⟨v', hv'⟩ :=
              @attemptOnSuccess_dom ec urls data k v hk
            rw [← hu] at hv'
            exact ih (attempt + 1) u _ m k v' hv' hok

/-! ## Lemmas: one loop iteration of the full-results script -/

theorem eoaCount_snd_pending {acc : StatusCounts × Bool}
    {r : EoaClientResult} (h : r.status = some "pending") :
    (eoaCount acc r).2 = false := by
  unfold eoaCount
  have h1 : ¬ (r.status = some "complete") := by rw [h]; decide
  simp [h1, h]

theorem eoaCount_snd_other {acc : StatusCounts × Bool}
    {r : EoaClientResult} (h : r.status ≠ some "pending") :
    (eoaCount acc r).2 = acc.2 := by
  unfold eoaCount
  by_cases h1 : r.status = some "complete"
  · simp [h1]
  · by_cases h3 : r.status = some "failed" <;> simp [h1, h, h3]

theorem eoaScan_foldl_snd_true_iff :
    ∀ (rs : List EoaClientResult) (acc : StatusCounts × Bool),
      (rs.foldl eoaCount acc).2 = true ↔
        (acc.2 = true ∧ ∀ r ∈ rs, r.status ≠ some "pending") := by
  intro rs
  induction rs with
  | nil => intro acc; simp
  | cons r t ih =>
      intro acc
      show ((t.foldl eoaCount (eoaCount acc r)).2 = true) ↔ _
      rw [ih]
      by_cases hp : r.status = some "pending"
      · rw [eoaCount_snd_pending hp]
        constructor
        · intro h
          exact Bool.noConfusion h.1
        · intro h
          exact absurd hp (h.2 r (List.mem_cons_self _ _))
      · rw [eoaCount_snd_other hp]
        constructor
        · intro h
          refine ⟨h.1, ?_⟩
          intro r' hr'
          rcases List.mem_cons.mp hr' with h1 | h1
          · rw [h1]; exact hp
          · exact h.2 r' h1
        · intro h
          exact ⟨h.1, fun r' hr' => h.2 r' (List.mem_cons_of_mem _ hr')⟩

theorem eoaScanResults_snd_true_iff (rs : List EoaClientResult) :
    (eoaScanResults rs).2 = true ↔
      ∀ r ∈ rs, r.status ≠ some "pending" := by
  unfold eoaScanResults
  rw [eoaScan_foldl_snd_true_iff]
  simp

theorem eoaAttemptAllFinal_of_ne {attempt : Nat}
    {rs : List EoaClientResult} (hne : rs ≠ []) :
    eoaAttemptAllFinal attempt rs = (eoaScanResults rs).2 := by
  cases rs with
  | nil => exact absurd rfl hne
  | cons r t => rfl

theorem eoaStep_brk {resp : Option EoaData} {attempt : Nat} {data : EoaData}
    (hne : data.results.getD [] ≠ [])
    (hnp : ∀ r ∈ data.results.getD [], r.status ≠ some "pending") :
    eoaStep resp attempt (.success data) = .brk data := by
  unfold eoaStep
  have h1 : eoaAttemptAllFinal attempt (data.results.getD []) = true := by
    rw [eoaAttemptAllFinal_of_ne hne]
    exact (eoaScanResults_snd_true_iff _).mpr hnp
  have h2 : 0 < (data.results.getD []).length := List.length_pos.mpr hne
  simp [h1, h2]

theorem eoaStep_401 (resp : Option EoaData) (attempt : Nat) :
    eoaStep resp attempt (.httpError 401) = .exitAuth := by
  unfold eoaStep
  norm_num

theorem eoaStep_httpError_ne401 {s : Nat} (resp : Option EoaData)
    (attempt : Nat) (h : s ≠ 401) :
    eoaStep resp attempt (.httpError s) = .cont resp false := by
  unfold eoaStep
  by_cases h4 : s = 404 <;> simp [h4, h]

theorem eoaStep_network (resp : Option EoaData) (attempt : Nat) :
    eoaStep resp attempt .networkError = .cont resp false := rfl

theorem eoaStep_exitAuth_inv {resp : Option EoaData} {attempt : Nat}
    {out : EoaFetchOutcome} (h : eoaStep resp attempt out = .exitAuth) :
    out = .httpError 401 := by
  cases out with
  | success data =>
      unfold eoaStep at h
      by_cases hb : (eoaAttemptAllFinal attempt (data.results.getD []) &&
          decide (0 < (data.results.getD []).length)) = true <;>
        simp [hb] at h
  | httpError s =>
      by_cases h1 : s = 401
      · rw [h1]
      · rw [eoaStep_httpError_ne401 resp attempt h1] at h
        cases h
  | networkError => cases h

theorem eoaStep_cont_af_true {resp : Option EoaData} {attempt : Nat}
    {out : EoaFetchOutcome} {r : Option EoaData} {af : Bool}
    (h : eoaStep resp attempt out = .cont r af) (haf : af = true) :
    ∃ data, out = .success data ∧ data.results.getD [] = [] ∧
      attempt ≠ 0 := by
  subst haf
  cases out with
  | success data =>
      simp only [eoaStep] at h
      split at h
      next hb => exact EoaStepRes.noConfusion h
      next hb =>
        injection h with h1 h2
        have hrs : data.results.getD [] = [] := by
          by_cases hlen : data.results.getD [] = []
          · exact hlen
          · exfalso
            have hc : (eoaAttemptAllFinal attempt (data.results.getD []) &&
                decide (0 < (data.results.getD []).length)) = true := by
              rw [h2]
              simp [List.length_pos.mpr hlen]
            exact hb hc
        refine ⟨data, rfl, hrs, ?_⟩
        intro h0
        rw [h0, hrs] at h2
        exact absurd h2 (by decide)
  | httpError s =>
      unfold eoaStep at h
      by_cases h4 : s = 404
      · simp [h4] at h
      · by_cases h1 : s = 401 <;> simp [h4, h1] at h
  | networkError =>
      cases h

/-! ## Lemmas: the full-results polling loop -/

theorem runEoaAux_fetches_le (tr : Nat → EoaFetchOutcome) :
    ∀ fuel attempt resp sleeps,
      (runEoaAux tr fuel attempt resp sleeps).fetches ≤ attempt + fuel := by
  intro fuel
  induction fuel with
  | zero => intro attempt resp sleeps; exact Nat.le_refl _
  | succ n ih =>
      intro attempt resp sleeps
      unfold runEoaAux
      cases hs : eoaStep resp attempt (tr attempt) with
      | brk d => show attempt + 1 ≤ attempt + (n + 1); omega
      | exitAuth => show attempt + 1 ≤ attempt + (n + 1); omega
      | cont r af =>
          refine Nat.le_trans (ih (attempt + 1) r _) (by omega)

theorem runEoaAux_fetches_ge (tr : Nat → EoaFetchOutcome) :
    ∀ fuel attempt resp sleeps,
      attempt ≤ (runEoaAux tr fuel attempt resp sleeps).fetches := by
  intro fuel
  induction fuel with
  | zero => intro attempt resp sleeps; exact Nat.le_refl _
  | succ n ih =>
      intro attempt resp sleeps
      unfold runEoaAux
      cases hs : eoaStep resp attempt (tr attempt) with
      | brk d => show attempt ≤ attempt + 1; omega
      | exitAuth => show attempt ≤ attempt + 1; omega
      | cont r af =>
          refine Nat.le_trans (by omega) (ih (attempt + 1) r _)

theorem runEoaAux_fetches_ge_succ (tr : Nat → EoaFetchOutcome) :
    ∀ fuel attempt resp sleeps, 1 ≤ fuel →
      attempt + 1 ≤ (runEoaAux tr fuel attempt resp sleeps).fetches := by
  intro fuel
  cases fuel with
  | zero => intro attempt resp sleeps h; omega
  | succ n =>
      intro attempt resp sleeps _
      unfold runEoaAux
      cases hs : eoaStep resp attempt (tr attempt) with
      | brk d => exact Nat.le_refl _
      | exitAuth => exact Nat.le_refl _
      | cont r af =>
          exact runEoaAux_fetches_ge tr n (attempt + 1) r _

theorem runEoaAux_sleeps_mono (tr : Nat → EoaFetchOutcome)
    {x : Nat × Nat} :
    ∀ fuel attempt resp sleeps, x ∈ sleeps →
      x ∈ (runEoaAux tr fuel attempt resp sleeps).sleepsAfter := by
  intro fuel
  induction fuel with
  | zero => intro attempt resp sleeps hx; exact hx
  | succ n ih =>
      intro attempt resp sleeps hx
      unfold runEoaAux
      cases hs : eoaStep resp attempt (tr attempt) with
      | brk d => exact hx
      | exitAuth => exact hx
      | cont r af =>
          refine ih (attempt + 1) r _ ?_
          split
          · exact List.mem_append_left _ hx
          · exact hx

theorem runEoaAux_sleeps_src (tr : Nat → EoaFetchOutcome)
    {x : Nat × Nat} :
    ∀ fuel attempt resp sleeps,
      x ∈ (runEoaAux tr fuel attempt resp sleeps).sleepsAfter →
      x ∈ sleeps ∨ x.2 = POLLING_INTERVAL_MS := by
  intro fuel
  induction fuel with
  | zero => intro attempt resp sleeps hx; exact Or.inl hx
  | succ n ih =>
      intro attempt resp sleeps hx
      unfold runEoaAux at hx
      cases hs : eoaStep resp attempt (tr attempt) with
      | brk d => rw [hs] at hx; exact Or.inl hx
      | exitAuth => rw [hs] at hx; exact Or.inl hx
      | cont r af =>
          rw [hs] at hx
          rcases ih (attempt + 1) r _ hx with h1 | h1
          · revert h1
            split
            · intro h1
              rcases List.mem_append.mp h1 with h2 | h2
              · exact Or.inl h2
              · right
                rw [List.mem_singleton.mp h2]
            · intro h1
              exact Or.inl h1
          · exact Or.inr h1

theorem runEoaAux_brk (tr : Nat → EoaFetchOutcome) {i : Nat}
    {data : EoaData} (hi : tr i = .success data)
    (hne : data.results.getD [] ≠ [])
    (hnp : ∀ r ∈ data.results.getD [], r.status ≠ some "pending") :
    ∀ fuel attempt resp sleeps, attempt ≤ i →
      i < (runEoaAux tr fuel attempt resp sleeps).fetches →
      (runEoaAux tr fuel attempt resp sleeps).fetches = i + 1 ∧
      (runEoaAux tr fuel attempt resp sleeps).exitedAuth = false ∧
      (runEoaAux tr fuel attempt resp sleeps).fullApiResponse =
        some data := by
  intro fuel
  induction fuel with
  | zero =>
      intro attempt resp sleeps hai hlt
      exact absurd hlt (by simp [runEoaAux]; omega)
  | succ n ih =>
      intro attempt resp sleeps hai hlt
      rcases Nat.eq_or_lt_of_le hai with heq | hlt2
      · subst heq
        have hstep : eoaStep resp attempt (tr attempt) = .brk data := by
          rw [hi]
          exact eoaStep_brk hne hnp
        unfold runEoaAux
        rw [hstep]
        exact ⟨rfl, rfl, rfl⟩
      · unfold runEoaAux at hlt ⊢
        cases hstep : eoaStep resp attempt (tr attempt) with
        | brk d =>
            rw [hstep] at hlt
            have h1 : i < attempt + 1 := hlt
            omega
        | exitAuth =>
            rw [hstep] at hlt
            have h1 : i < attempt + 1 := hlt
            omega
        | cont r af =>
            rw [hstep] at hlt
            exact ih (attempt + 1) r _ hlt2 hlt

theorem runEoaAux_auth (tr : Nat → EoaFetchOutcome) {i : Nat}
    (hi : tr i = .httpError 401) :
    ∀ fuel attempt resp sleeps, (∀ y ∈ sleeps, y.1 < attempt) →
      attempt ≤ i →
      i < (runEoaAux tr fuel attempt resp sleeps).fetches →
      (runEoaAux tr fuel attempt resp sleeps).fetches = i + 1 ∧
      (runEoaAux tr fuel attempt resp sleeps).exitedAuth = true ∧
      ∀ y ∈ (runEoaAux tr fuel attempt resp sleeps).sleepsAfter,
        y.1 < i := by
  intro fuel
  induction fuel with
  | zero =>
      intro attempt resp sleeps hsl hai hlt
      exact absurd hlt (by simp [runEoaAux]; omega)
  | succ n ih =>
      intro attempt resp sleeps hsl hai hlt
      rcases Nat.eq_or_lt_of_le hai with heq | hlt2
      · subst heq
        have hstep : eoaStep resp attempt (tr attempt) = .exitAuth := by
          rw [hi]
          exact eoaStep_401 resp attempt
        unfold runEoaAux
        rw [hstep]
        exact ⟨rfl, rfl, hsl⟩
      · unfold runEoaAux at hlt ⊢
        cases hstep : eoaStep resp attempt (tr attempt) with
        | brk d =>
            rw [hstep] at hlt
            have h1 : i < attempt + 1 := hlt
            omega
        | exitAuth =>
            rw [hstep] at hlt
            have h1 : i < attempt + 1 := hlt
            omega
        | cont r af =>
            rw [hstep] at hlt
            refine ih (attempt + 1) r _ ?_ hlt2 hlt
            intro z hz
            revert hz
            split
            · intro hz
              rcases List.mem_append.mp hz with h2 | h2
              · exact Nat.lt_succ_of_lt (hsl z h2)
              · rw [List.mem_singleton.mp h2]
                exact Nat.lt_succ_self _
            · intro hz
              exact Nat.lt_succ_of_lt (hsl z hz)

theorem runEoaAux_continues (tr : Nat → EoaFetchOutcome) {i : Nat}
    (hc : ∀ resp, ∃ r af, eoaStep resp i (tr i) = .cont r af) :
    ∀ fuel attempt resp sleeps,
      attempt + fuel = MAX_POLLING_ATTEMPTS → attempt ≤ i →
      i < (runEoaAux tr fuel attempt resp sleeps).fetches →
      i + 1 < MAX_POLLING_ATTEMPTS →
      i + 1 < (runEoaAux tr fuel attempt resp sleeps).fetches := by
  intro fuel
  induction fuel with
  | zero =>
      intro attempt resp sleeps hta hai hlt hmax
      exact absurd hlt (by simp [runEoaAux]; omega)
  | succ n ih =>
      intro attempt resp sleeps hta hai hlt hmax
      rcases Nat.eq_or_lt_of_le hai with heq | hlt2
      · subst heq
        obtain ⟨r, af, hstep⟩ := hc resp
        unfold runEoaAux
        rw [hstep]
        show attempt + 1 < (runEoaAux tr n (attempt + 1) r _).fetches
        refine Nat.lt_of_lt_of_le (Nat.lt_succ_self _) ?_
        refine runEoaAux_fetches_ge_succ tr n (attempt + 1) r _ ?_
        simp [MAX_POLLING_ATTEMPTS] at hta hmax
        omega
      · unfold runEoaAux at hlt ⊢
        cases hstep : eoaStep resp attempt (tr attempt) with
        | brk d =>
            rw [hstep] at hlt
            have h1 : i < attempt + 1 := hlt
            omega
        | exitAuth =>
            rw [hstep] at hlt
            have h1 : i < attempt + 1 := hlt
            omega
        | cont r af =>
            rw [hstep] at hlt
            exact ih (attempt + 1) r _ (by omega) hlt2 hlt hmax

theorem runEoaAux_sleep_between (tr : Nat → EoaFetchOutcome) {i : Nat}
    (hni : ¬ (eoaEmptySuccess (tr i) ∧ i ≠ 0)) :
    ∀ fuel attempt resp sleeps,
      attempt + fuel = MAX_POLLING_ATTEMPTS → attempt ≤ i →
      i + 1 < (runEoaAux tr fuel attempt resp sleeps).fetches →
      (i, POLLING_INTERVAL_MS) ∈
        (runEoaAux tr fuel attempt resp sleeps).sleepsAfter := by
  intro fuel
  induction fuel with
  | zero =>
      intro attempt resp sleeps hta hai hlt
      exact absurd hlt (by simp [runEoaAux]; omega)
  | succ n ih =>
      intro attempt resp sleeps hta hai hlt
      rcases Nat.eq_or_lt_of_le hai with heq | hlt2
      · subst heq
        unfold runEoaAux at hlt ⊢
        cases hstep : eoaStep resp attempt (tr attempt) with
        | brk d =>
            rw [hstep] at hlt
            have h1 : attempt + 1 < attempt + 1 := hlt
            omega
        | exitAuth =>
            rw [hstep] at hlt
            have h1 : attempt + 1 < attempt + 1 := hlt
            omega
        | cont r af =>
            rw [hstep] at hlt
            have haf : af = false := by
              cases haf : af
              · rfl
              · obtain ⟨data, hdata, hrs, hne0⟩ :=
                  eoaStep_cont_af_true hstep haf
                exact absurd ⟨⟨data, hdata, hrs⟩, hne0⟩ hni
            have hcond : attempt < MAX_POLLING_ATTEMPTS - 1 := by
              have h2 := runEoaAux_fetches_le tr n (attempt + 1) r
                (if (decide (attempt < MAX_POLLING_ATTEMPTS - 1) && !af) =
                    true then
                   sleeps ++ [(attempt, POLLING_INTERVAL_MS)]
                 else sleeps)
              simp [MAX_POLLING_ATTEMPTS] at hta h2 hlt ⊢
              omega
            refine runEoaAux_sleeps_mono tr n (attempt + 1) r _ ?_
            rw [haf]
            simp [hcond]
      · unfold runEoaAux at hlt ⊢
        cases hstep : eoaStep resp attempt (tr attempt) with
        | brk d =>
            rw [hstep] at hlt
            have h1 : i + 1 < attempt + 1 := hlt
            omega
        | exitAuth =>
            rw [hstep] at hlt
            have h1 : i + 1 < attempt + 1 := hlt
            omega
        | cont r af =>
            rw [hstep] at hlt
            exact ih (attempt + 1) r _ (by omega) hlt2 hlt

/-! ## Lemmas: the Gmail walk versus its claimed reading -/

mutual

theorem claimHtmlOf_good_ne_nil : ∀ (p : MessagePart),
    goodHtmlBodies p = true → ∀ h, claimHtmlOf p = some h → h ≠ []
  | .mk mimeType bodyData parts, hg, h, hh => by
      simp only [goodHtmlBodies] at hg
      rw [claimHtmlOf] at hh
      have hg1 := Bool.and_elim_left hg
      have hg2 := Bool.and_elim_right hg
      by_cases hc : mimeType = some "text/html" ∧ bodyData.isSome
      · rw [if_pos hc] at hh
        injection hh with hh2
        cases hbd : bodyData with
        | none => rw [hbd] at hc; exact absurd hc.2 (by simp)
        | some d =>
            rw [if_pos hc.1] at hg1
            rw [hbd] at hg1 hh2
            have hg4 := Bool.and_elim_right hg1
            intro hnil
            have hd2 : b64decode d = h := hh2
            rw [hnil] at hd2
            rw [hd2] at hg4
            simp at hg4
      · rw [if_neg hc] at hh
        exact claimHtmlOfParts_good_ne_nil parts hg2 h hh

theorem claimHtmlOfParts_good_ne_nil : ∀ (ps : List MessagePart),
    goodHtmlBodiesList ps = true → ∀ h, claimHtmlOfParts ps = some h →
      h ≠ []
  | [], _, h, hh => by rw [claimHtmlOfParts] at hh; cases hh
  | p :: ps, hg, h, hh => by
      simp only [goodHtmlBodiesList] at hg
      rw [claimHtmlOfParts] at hh
      have hg1 := Bool.and_elim_left hg
      have hg2 := Bool.and_elim_right hg
      cases hcl : claimHtmlOf p with
      | some h' =>
          rw [hcl] at hh
          injection hh with hh2
          rw [← hh2]
          exact claimHtmlOf_good_ne_nil p hg1 h' hcl
      | none =>
          rw [hcl] at hh
          exact claimHtmlOfParts_good_ne_nil ps hg2 h hh

end

mutual

theorem getHtml_eq_claim_good : ∀ (p : MessagePart),
    goodHtmlBodies p = true → getHtmlFromPayload p = claimHtmlOf p
  | .mk mimeType bodyData parts, hg => by
      simp only [goodHtmlBodies] at hg
      have hg1 := Bool.and_elim_left hg
      have hg2 := Bool.and_elim_right hg
      rw [getHtmlFromPayload, claimHtmlOf]
      by_cases hm : mimeType = some "text/html"
      · cases hbd : bodyData with
        | none =>
            have hself : htmlSelf mimeType none = none := by
              unfold htmlSelf
              rw [if_pos hm]
            rw [hself]
            have hc : ¬ (mimeType = some "text/html" ∧
                (none : Option String).isSome) := by simp
            rw [if_neg hc]
            exact getHtmlParts_eq_claim_good parts hg2
        | some d =>
            rw [if_pos hm, hbd] at hg1
            have hg3 := Bool.and_elim_left hg1
            have hd : ¬ (d = "") := by simpa using hg3
            have hself : htmlSelf mimeType (some d) =
                some (b64decode d) := by
              unfold htmlSelf
              rw [if_pos hm]
              show (if d = "" then none else some (b64decode d)) =
                some (b64decode d)
              rw [if_neg hd]
            rw [hself]
            have hc : mimeType = some "text/html" ∧
                (some d).isSome = true := ⟨hm, rfl⟩
            rw [if_pos hc]
            rfl
      · have hself : htmlSelf mimeType bodyData = none := by
          unfold htmlSelf
          rw [if_neg hm]
        rw [hself]
        have hc : ¬ (mimeType = some "text/html" ∧ bodyData.isSome) :=
          fun hcc => hm hcc.1
        rw [if_neg hc]
        exact getHtmlParts_eq_claim_good parts hg2

theorem getHtmlParts_eq_claim_good : ∀ (ps : List MessagePart),
    goodHtmlBodiesList ps = true → htmlFromParts ps = claimHtmlOfParts ps
  | [], _ => rfl
  | p :: ps, hg => by
      simp only [goodHtmlBodiesList] at hg
      have hg1 := Bool.and_elim_left hg
      have hg2 := Bool.and_elim_right hg
      rw [htmlFromParts, claimHtmlOfParts]
      rw [getHtml_eq_claim_good p hg1]
      cases hcl : claimHtmlOf p with
      | some h' =>
          have hne := claimHtmlOf_good_ne_nil p hg1 h' hcl
          have hie : h'.isEmpty = false := by
            cases h' with
            | nil => exact absurd rfl hne
            | cons a t => rfl
          show (if h'.isEmpty = true then htmlFromParts ps else some h') =
            some h'
          rw [hie]
          rw [if_neg (by simp)]
      | none =>
          exact getHtmlParts_eq_claim_good ps hg2

end

/-! ## Claims -/

/-- Claim C1: for every run of the polling loop in getPreviewUrls, if on
some attempt every client in the monitored set has a terminal status
("Complete", "Failed", or "Bounced") in the fetched results, the loop
performs no further fetch attempts and returns; likewise the loop in
get-full-eoa-results.ts stops polling on the first attempt where no
fetched result has status "pending" and at least one result was
returned. -/
theorem claim_C1 (ec : List String) (tr : Nat → FetchOutcome)
    (tr' : Nat → EoaFetchOutcome) (i j : Nat) :
    (i < (runPoll ec tr).fetches → previewAllFinal ec (tr i) →
      (runPoll ec tr).fetches = i + 1 ∧
      ∃ m, (runPoll ec tr).result = .ok m) ∧
    (j < (runEoa tr').fetches → eoaAllFinal (tr' j) →
      (runEoa tr').fetches = j + 1 ∧
      (runEoa tr').exitedAuth = false) := by
  constructor
  · intro hlt hfin
    obtain ⟨data, hdata, hall⟩ := hfin
    exact runPollAux_brk ec tr hdata hall MAX_POLLING_ATTEMPTS 0 [] []
      (Nat.zero_le _) hlt
  · intro hlt hfin
    obtain ⟨data, hdata, hne, hnp⟩ := hfin
    obtain ⟨h1, h2, -⟩ := runEoaAux_brk tr' hdata hne hnp
      MAX_POLLING_ATTEMPTS 0 none [] (Nat.zero_le _) hlt
    exact ⟨h1, h2⟩

/-- Witness for C1: a run whose first response is all-terminal stops
after exactly one fetch, in both loops. -/
theorem claim_C1_witness :
    (runPoll ["a"]
      (fun _ => .success [("a", ⟨"Failed", .missing⟩)])).fetches = 1 ∧
    (runEoa (fun _ => .success ⟨some [⟨some "complete"⟩]⟩)).fetches = 1 := by
  have h := claim_C1 ["a"]
    (fun _ => .success [("a", ⟨"Failed", .missing⟩)])
    (fun _ => .success ⟨some [⟨some "complete"⟩]⟩) 0 0
  refine ⟨(h.1 (by decide) ⟨_, rfl, by decide⟩).1,
    (h.2 (by decide) ⟨_, rfl, by decide, by decide⟩).1⟩

/-- Claim C2 counterexample: on the trace whose every response parses to
an empty results array, the full-results loop performs all 60 fetch
attempts but sleeps only once (after the first attempt): from the second
attempt on, an empty results array leaves allClientStatusesFinal set, so
the sleep between consecutive attempts is skipped. -/
theorem claim_C2_counterexample :
    (runEoa eoaEmptyTrace).fetches = 60 ∧
    (runEoa eoaEmptyTrace).sleepsAfter = [(0, 10000)] := by decide

/-- Claim C2 as amended: both loops perform at most 60 fetch attempts
and every sleep they take lasts exactly 10000 ms; the getPreviewUrls
loop sleeps between every two consecutive attempts and only between
consecutive attempts; the results-fetch loop sleeps between consecutive
attempts except after an attempt (other than the first) whose successful
response carries an empty results array. -/
theorem claim_C2_amended (ec : List String) (tr : Nat → FetchOutcome)
    (tr' : Nat → EoaFetchOutcome) :
    (runPoll ec tr).fetches ≤ 60 ∧
    (runEoa tr').fetches ≤ 60 ∧
    (∀ y ∈ (runPoll ec tr).sleepsAfter, y.2 = 10000) ∧
    (∀ y ∈ (runEoa tr').sleepsAfter, y.2 = 10000) ∧
    (∀ i, i + 1 < (runPoll ec tr).fetches →
      (i, 10000) ∈ (runPoll ec tr).sleepsAfter) ∧
    (∀ y ∈ (runPoll ec tr).sleepsAfter,
      y.1 + 1 < (runPoll ec tr).fetches) ∧
    (∀ j, j + 1 < (runEoa tr').fetches →
      ¬ (eoaEmptySuccess (tr' j) ∧ j ≠ 0) →
      (j, 10000) ∈ (runEoa tr').sleepsAfter) := by
  refine ⟨runPollAux_fetches_le ec tr 60 0 [] [],
    runEoaAux_fetches_le tr' 60 0 none [], ?_, ?_, ?_, ?_, ?_⟩
  · intro y hy
    rcases runPollAux_sleeps_src ec tr 60 0 [] [] hy with h1 | h1
    · cases h1
    · exact h1
  · intro y hy
    rcases runEoaAux_sleeps_src tr' 60 0 none [] hy with h1 | h1
    · cases h1
    · exact h1
  · intro i hi
    exact runPollAux_sleep_between ec tr 60 0 [] [] rfl (Nat.zero_le _) hi
  · intro y hy
    exact runPollAux_sleeps_strict ec tr 60 0 [] [] rfl (by simp) y hy
  · intro j hj hne
    exact runEoaAux_sleep_between tr' hne 60 0 none [] rfl
      (Nat.zero_le _) hj

/-- Witness for the amended C2: on an always-network-error trace, the
getPreviewUrls loop sleeps after its first attempt. -/
theorem claim_C2_amended_witness :
    (0, 10000) ∈ (runPoll [] (fun _ => .networkError)).sleepsAfter := by
  have h := claim_C2_amended [] (fun _ => .networkError)
    (fun _ => .networkError)
  exact h.2.2.2.2.1 0 (by decide)

/-- Claim C3: on an attempt whose fetch fails with HTTP 401, both loops
abort immediately — no further fetch attempt, no sleep after that
attempt — with getPreviewUrls re-throwing (authError result) and the
results script exiting the process. -/
theorem claim_C3 (ec : List String) (tr : Nat → FetchOutcome)
    (tr' : Nat → EoaFetchOutcome) (i j : Nat) :
    (i < (runPoll ec tr).fetches → tr i = .httpError 401 →
      (runPoll ec tr).fetches = i + 1 ∧
      (runPoll ec tr).result = .authError ∧
      ∀ y ∈ (runPoll ec tr).sleepsAfter, y.1 < i) ∧
    (j < (runEoa tr').fetches → tr' j = .httpError 401 →
      (runEoa tr').fetches = j + 1 ∧
      (runEoa tr').exitedAuth = true ∧
      ∀ y ∈ (runEoa tr').sleepsAfter, y.1 < j) := by
  constructor
  · intro hlt hi
    exact runPollAux_auth ec tr hi 60 0 [] [] (by simp) (Nat.zero_le _)
      hlt
  · intro hlt hi
    exact runEoaAux_auth tr' hi 60 0 none [] (by simp) (Nat.zero_le _)
      hlt

/-- Witness for C3: a 401 on the very first attempt stops both loops
after one fetch with no sleep at all. -/
theorem claim_C3_witness :
    (runPoll ["a"] (fun _ => .httpError 401)).fetches = 1 ∧
    (runPoll ["a"] (fun _ => .httpError 401)).result = .authError ∧
    (runEoa (fun _ => .httpError 401)).exitedAuth = true := by
  have h := claim_C3 ["a"] (fun _ => .httpError 401)
    (fun _ => .httpError 401) 0 0
  obtain ⟨h1, h2, -⟩ := h.1 (by decide) rfl
  obtain ⟨-, h4, -⟩ := h.2 (by decide) rfl
  exact ⟨h1, h2, h4⟩

/-- Claim C7: every fetch error other than 401 — 404, any other HTTP
status, or a network error — is non-fatal: when such an error happens on
an attempt that is not the last allowed one, the loop performs at least
one further attempt. -/
theorem claim_C7 (ec : List String) (tr : Nat → FetchOutcome)
    (tr' : Nat → EoaFetchOutcome) (i j : Nat) :
    (i < (runPoll ec tr).fetches → i + 1 < 60 → transientOutcome (tr i) →
      i + 1 < (runPoll ec tr).fetches) ∧
    (j < (runEoa tr').fetches → j + 1 < 60 →
      eoaTransientOutcome (tr' j) → j + 1 < (runEoa tr').fetches) := by
  constructor
  · intro hlt hmax htrans
    have hc : ∀ urls, ∃ u, pollStep ec urls (tr i) = .cont u false := by
      intro urls
      rcases htrans with ⟨s, hs, hs401⟩ | hn
      · refine ⟨urls, ?_⟩
        rw [hs]
        exact pollStep_httpError_ne401 ec urls hs401
      · refine ⟨urls, ?_⟩
        rw [hn]
        exact pollStep_network ec urls
    exact runPollAux_continues ec tr hc 60 0 [] [] rfl (Nat.zero_le _)
      hlt hmax
  · intro hlt hmax htrans
    have hc : ∀ resp, ∃ r af, eoaStep resp j (tr' j) = .cont r af := by
      intro resp
      rcases htrans with ⟨s, hs, hs401⟩ | hn
      · refine ⟨resp, false, ?_⟩
        rw [hs]
        exact eoaStep_httpError_ne401 resp j hs401
      · refine ⟨resp, false, ?_⟩
        rw [hn]
        exact eoaStep_network resp j
    exact runEoaAux_continues tr' hc 60 0 none [] rfl (Nat.zero_le _)
      hlt hmax

/-- Witness for C7: a 500 on the first attempt is retried (a second
fetch happens) in both loops. -/
theorem claim_C7_witness :
    1 < (runPoll ["a"] (fun _ => .httpError 500)).fetches ∧
    1 < (runEoa (fun _ => .httpError 500)).fetches := by
  have h := claim_C7 ["a"] (fun _ => .httpError 500)
    (fun _ => .httpError 500) 0 0
  exact ⟨h.1 (by decide) (by decide) (Or.inl ⟨500, rfl, by decide⟩),
    h.2 (by decide) (by decide) (Or.inl ⟨500, rfl, by decide⟩)⟩

/-- Claim C4 counterexample: with the single tracked client "a" whose
fetched status is the terminal failure "Failed", getPreviewUrls stops
after one attempt but returns the empty mapping: the failed client's
failure reason is only logged, never stored, so the returned mapping is
not a mapping "from client key to that client's terminal result — a
preview URL for a completed client or a failure reason for a
failed/bounced client". -/
theorem claim_C4_counterexample :
    (runPoll ["a"] failedClientTrace).fetches = 1 ∧
    (runPoll ["a"] failedClientTrace).result = .ok [] := by decide

/-- Claim C4 as amended: getPreviewUrls returns (never throws, even when
the 60-attempt ceiling is reached with clients still pending) as long as
no attempt fails with 401, and the returned mapping contains only
completed clients' URLs: every entry is the default screenshot URL of a
client whose fetched status was "Complete" on some executed attempt;
failed and bounced clients are omitted from the mapping. -/
theorem claim_C4_amended (ec : List String) (tr : Nat → FetchOutcome)
    (h401 : ∀ i, tr i ≠ .httpError 401) :
    ∃ m, (runPoll ec tr).result = .ok m ∧
      ∀ kv ∈ m, urlProvenance tr (runPoll ec tr).fetches kv := by
  obtain ⟨m, hm⟩ := runPollAux_result_ok ec tr 60 0 [] []
    (fun j _ => h401 j)
  refine ⟨m, hm, ?_⟩
  exact runPollAux_result_mem ec tr 60 0 [] [] m (by simp) hm

/-- Witness for the amended C4: a run whose tracked client completes
returns a mapping, every entry of which has "Complete" provenance. -/
theorem claim_C4_amended_witness :
    ∃ m, (runPoll ["a"]
        (fun _ => .success [("a", ⟨"Complete", .str "u"⟩)])).result =
        .ok m ∧
      ∀ kv ∈ m, urlProvenance
        (fun _ => .success [("a", ⟨"Complete", .str "u"⟩)])
        (runPoll ["a"]
          (fun _ => .success [("a", ⟨"Complete", .str "u"⟩)])).fetches
        kv :=
  claim_C4_amended ["a"] _ (fun _ h => FetchOutcome.noConfusion h)

/-- Claim C5 counterexample: in the full-results script, a fetched
result with the non-terminal status "processing" is classified into none
of the three cases — the per-result scan counts it in no bucket and
leaves allClientStatusesFinal set — so the loop treats it as final and
stops after a single attempt instead of classifying it as pending and
continuing to poll. -/
theorem claim_C5_counterexample :
    (runEoa processingStatusTrace).fetches = 1 ∧
    eoaScanResults [⟨some "processing"⟩] = (⟨0, 0, 0⟩, true) := by decide

/-- Claim C5 as amended: in getPreviewUrls every tracked client present
in the fetched results falls into exactly one of three behaviours —
"Complete" (URL stored when the default screenshot payload is a
non-empty string; otherwise the client is not counted as processed and
no URL is stored), "Failed"/"Bounced" (state untouched), or any other
status (non-terminal: the all-processed flag is cleared) — while in the
results-fetch script only the literal status "pending" is treated as
non-terminal: a non-empty results array is all-final exactly when no
result has status "pending", statuses outside
complete/pending/failed being counted in no summary bucket. -/
theorem claim_C5_amended (data : ApiResults) (st : AttemptState)
    (cid : String) (cr : ClientResult) (attempt : Nat)
    (rs : List EoaClientResult)
    (hcr : lookupKey data cid = some cr) :
    (cr.status = "Complete" →
      (∀ s, defaultUrlOf cr.screenshotsDefault = some s →
        pollClientStep data st cid =
          { st with urls := setKey st.urls cid s }) ∧
      (defaultUrlOf cr.screenshotsDefault = none →
        pollClientStep data st cid =
          { st with allProcessed := false })) ∧
    (cr.status ≠ "Complete" →
      (cr.status = "Failed" ∨ cr.status = "Bounced") →
      pollClientStep data st cid = st) ∧
    (cr.status ≠ "Complete" →
      ¬ (cr.status = "Failed" ∨ cr.status = "Bounced") →
      pollClientStep data st cid = { st with allProcessed := false }) ∧
    (rs ≠ [] → (eoaAttemptAllFinal attempt rs = true ↔
      ∀ r ∈ rs, r.status ≠ some "pending")) := by
  refine ⟨?_, ?_, ?_, ?_⟩
  · intro hc
    constructor
    · intro s hd
      unfold pollClientStep
      rw [hcr]
      show (if cr.status = "Complete" then _ else _) = _
      rw [if_pos hc]
      show (match defaultUrlOf cr.screenshotsDefault with
        | some s => { st with urls := setKey st.urls cid s }
        | none => { st with allProcessed := false }) = _
      rw [hd]
    · intro hd
      unfold pollClientStep
      rw [hcr]
      show (if cr.status = "Complete" then _ else _) = _
      rw [if_pos hc]
      show (match defaultUrlOf cr.screenshotsDefault with
        | some s => { st with urls := setKey st.urls cid s }
        | none => { st with allProcessed := false }) = _
      rw [hd]
  · intro hc hf
    unfold pollClientStep
    rw [hcr]
    show (if cr.status = "Complete" then _ else _) = _
    rw [if_neg hc, if_pos hf]
  · intro hc hf
    unfold pollClientStep
    rw [hcr]
    show (if cr.status = "Complete" then _ else _) = _
    rw [if_neg hc, if_neg hf]
  · intro hrs
    rw [eoaAttemptAllFinal_of_ne hrs]
    exact eoaScanResults_snd_true_iff rs

/-- Witness for the amended C5: a concrete "Complete" client with a
valid URL gets its URL stored, and a singleton "complete" results array
is all-final. -/
theorem claim_C5_amended_witness :
    pollClientStep [("a", ⟨"Complete", JsField.str "u"⟩)] ⟨[], true⟩
        "a" = ⟨[("a", "u")], true⟩ ∧
    eoaAttemptAllFinal 1 [⟨some "complete"⟩] = true := by
  have h := claim_C5_amended [("a", ⟨"Complete", JsField.str "u"⟩)]
    ⟨[], true⟩ "a" ⟨"Complete", JsField.str "u"⟩ 1 [⟨some "complete"⟩]
    (by decide)
  constructor
  · exact (h.1 rfl).1 "u" (by decide)
  · exact (h.2.2.2 (by decide)).mpr (by decide)

/-- Claim C6 counterexample: with an empty emailClients list, the first
response contains clients "a" and "b" (both non-terminal) and every
later response contains only "a" (terminal): client "b" — one of the
keys that first appeared in a response — is terminal in no response,
yet the loop stops after the second fetch, because the monitored set is
re-derived on every attempt from that attempt's response and the second
response's keys are all terminal. -/
theorem claim_C6_counterexample :
    (runPoll [] shrinkingKeysTrace).fetches = 2 ∧
    (runPoll [] shrinkingKeysTrace).result = .ok [("a", "u")] ∧
    "b" ∈ c6Resp0.map (fun kv => kv.1) ∧
    clientFinalized c6Resp0 "b" = false ∧
    lookupKey c6Resp1 "b" = none := by decide

/-- Claim C6 as amended: for a non-empty emailClients list the monitored
set is exactly that list on every attempt; for an empty list the
monitored set is re-derived on each attempt as the keys of that
attempt's response, and the loop stops on the first attempt whose own
response keys are all terminal (vacuously including a response with no
keys at all), while it continues past any attempt (below the ceiling)
whose own response has a non-terminal key. -/
theorem claim_C6_amended (ec : List String) (tr : Nat → FetchOutcome)
    (i : Nat) (data : ApiResults) :
    (ec ≠ [] → ∀ d, clientsToMonitor ec d = ec) ∧
    (i < (runPoll [] tr).fetches → tr i = .success data →
      ((∀ c ∈ data.map (fun kv => kv.1), clientFinalized data c = true) →
        (runPoll [] tr).fetches = i + 1) ∧
      (i + 1 < 60 →
        (∃ c ∈ data.map (fun kv => kv.1),
          clientFinalized data c = false) →
        i + 1 < (runPoll [] tr).fetches)) := by
  constructor
  · intro hne d
    exact clientsToMonitor_of_ne hne d
  · intro hlt hdata
    have hmon : clientsToMonitor [] data = data.map (fun kv => kv.1) :=
      rfl
    constructor
    · intro hall
      refine (runPollAux_brk [] tr hdata ?_ MAX_POLLING_ATTEMPTS 0 [] []
        (Nat.zero_le _) hlt).1
      rw [hmon]
      exact hall
    · intro hmax hex
      obtain ⟨c, hcmem, hcfin⟩ := hex
      have hnall : ¬ ∀ c' ∈ clientsToMonitor [] data,
          clientFinalized data c' = true := by
        rw [hmon]
        intro hall
        rw [hall c hcmem] at hcfin
        exact Bool.noConfusion hcfin
      have hc : ∀ urls, ∃ u, pollStep [] urls (tr i) = .cont u false := by
        intro urls
        have hstep := @pollStep_success_not_brk [] urls data hnall
        have hap := pollStep_cont_false (hdata ▸ hstep :
          pollStep [] urls (tr i) = _)
        refine ⟨(attemptOnSuccess [] urls data).1.urls, ?_⟩
        rw [hdata, hstep, hap]
      exact runPollAux_continues [] tr hc 60 0 [] [] rfl (Nat.zero_le _)
        hlt hmax

/-- Witness for the amended C6: a non-empty list is monitored as-is, and
a run whose responses always contain a non-terminal key keeps polling
past the first attempt. -/
theorem claim_C6_amended_witness :
    clientsToMonitor ["x"] [] = ["x"] ∧
    1 < (runPoll []
      (fun _ => .success [("a", ⟨"Processing", .missing⟩)])).fetches := by
  have h := claim_C6_amended ["x"]
    (fun _ => .success [("a", ⟨"Processing", .missing⟩)]) 0
    [("a", ⟨"Processing", .missing⟩)]
  refine ⟨h.1 (by decide) [], ?_⟩
  exact (h.2 (by decide) rfl).2 (by decide) ⟨"a", by decide, by decide⟩

/-- Claim C8: on its success path globalSetup performs exactly two
writes — the generated-preview manifest file and the timestamped archive
copy — and both writes carry the same serialized content, namely the
2-space-indented JSON rendering of the generated previews built from the
preview-URL mapping. -/
theorem claim_C8 (taskName verboseTimestamp : String)
    (previewUrlsMap : UrlMap) :
    ∃ content,
      globalSetupWrites taskName verboseTimestamp previewUrlsMap =
        [(generatedUrlsFile (sanitizeFilename taskName false), content),
         (archiveFile (sanitizeFilename taskName false) verboseTimestamp,
          content)] ∧
      content = previewsJson (buildGeneratedPreviews previewUrlsMap) :=
  ⟨previewsJson (buildGeneratedPreviews previewUrlsMap), rfl, rfl⟩

/-- Claim C9 counterexample: in the payload `c9Payload` the first
text/html part in pre-order has present body data ("A", which decodes to
the empty byte string), so the claimed walk returns that empty decoded
body; the code instead skips it — the recursive result fails the
JavaScript truthiness test — and returns the second part's decoded body
"hi". -/
theorem claim_C9_counterexample :
    claimHtmlOf c9Payload = some [] ∧
    getHtmlFromPayload c9Payload = some [104, 105] := by decide

/-- Claim C9 as amended: getHtmlFromPayload walks the MIME part tree in
depth-first pre-order and agrees exactly with the claimed
first-text/html-part-with-present-body-data reading on every payload in
which each text/html part's present body data is a non-empty string with
a non-empty decoded body; without that proviso, a part whose body data
is empty or whose decoded body is empty is skipped in favour of later
parts. -/
theorem claim_C9_amended (p : MessagePart)
    (hg : goodHtmlBodies p = true) :
    getHtmlFromPayload p = claimHtmlOf p :=
  getHtml_eq_claim_good p hg

/-- Witness for the amended C9: on a payload with a text/plain part
followed by a text/html part decoding to "hi", the walk and its claimed
reading agree. -/
theorem claim_C9_amended_witness :
    getHtmlFromPayload
        (.mk (some "multipart/alternative") none
          [.mk (some "text/plain") (some "aGk=") [],
           .mk (some "text/html") (some "aGk=") []]) =
      claimHtmlOf
        (.mk (some "multipart/alternative") none
          [.mk (some "text/plain") (some "aGk=") [],
           .mk (some "text/html") (some "aGk=") []]) :=
  claim_C9_amended _ (by decide)

/-- Claim C10: for a call of getPreviewUrls with a non-empty
emailClients list, every key of the returned mapping is one of the
emailClients and every value is the string that was the "Complete"
client's default screenshot URL on some executed attempt; the mapping
grows monotonically — a stored entry survives every per-client step, and
it can change only when that step overwrites it with a "Complete"
client's default screenshot URL from the current response — and every
entry present when the loop starts from any intermediate state is still
present in the returned mapping. -/
theorem claim_C10 (ec : List String) (tr : Nat → FetchOutcome)
    (hne : ec ≠ []) :
    (∀ m, (runPoll ec tr).result = .ok m → ∀ kv ∈ m,
      kv.1 ∈ ec ∧ urlProvenance tr (runPoll ec tr).fetches kv) ∧
    (∀ data st cid k v, lookupKey st.urls k = some v →
      ∃ v', lookupKey (pollClientStep data st cid).urls k = some v' ∧
        (v' = v ∨ (k = cid ∧ ∃ cr, lookupKey data cid = some cr ∧
          cr.status = "Complete" ∧
          cr.screenshotsDefault = JsField.str v'))) ∧
    (∀ fuel attempt urls sleeps m k v, lookupKey urls k = some v →
      (runPollAux ec tr fuel attempt urls sleeps).result = .ok m →
      ∃ v', lookupKey m k = some v') := by
  refine ⟨?_, ?_, ?_⟩
  · intro m hm kv hkv
    refine ⟨runPollAux_result_keys ec tr hne 60 0 [] [] m (by simp) hm
      kv hkv, ?_⟩
    exact runPollAux_result_mem ec tr 60 0 [] [] m (by simp) hm kv hkv
  · intro data st cid k v hkv
    exact pollClientStep_lookup hkv
  · intro fuel attempt urls sleeps m k v hkv hm
    exact runPollAux_persist ec tr fuel attempt urls sleeps m k v hkv hm

/-- Witness for C10: on a completing run the returned entry ("a", "u")
has its key among the tracked clients and "Complete" provenance, and a
pre-stored entry survives a per-client step. -/
theorem claim_C10_witness :
    ("a" ∈ ["a"] ∧ urlProvenance
      (fun _ => .success [("a", ⟨"Complete", JsField.str "u"⟩)])
      (runPoll ["a"]
        (fun _ => .success [("a", ⟨"Complete", JsField.str "u"⟩)])).fetches
      ("a", "u")) ∧
    ∃ v', lookupKey
      (pollClientStep [] ⟨[("a", "u")], true⟩ "b").urls "a" = some v' := by
  have h := claim_C10 ["a"]
    (fun _ => .success [("a", ⟨"Complete", JsField.str "u"⟩)])
    (by decide)
  constructor
  · exact h.1 [("a", "u")] (by decide) ("a", "u") (by decide)
  · obtain ⟨v', hv', -⟩ := h.2.1 [] ⟨[("a", "u")], true⟩ "b" "a" "u"
      (by decide)
    exact ⟨v', hv'⟩
